import Mathlib

/-!
Shallow embedding of `jtmmcv/ops/nms.py` (single-group NMS and batched/grouped
NMS) and proofs of the specification claims about it.

Conventions of the embedding:
* floating-point coordinates and scores are modelled by `ℚ`;
* an `N×4` tensor of boxes is a `List (List ℚ)` of rows;
* a tensor of scores is a `List ℚ`; group ids (`idxs`) are a `List ℤ`;
* tensor indexing `xs[i]` is `List.getD` (all theorems about out-of-range
  behaviour carry the in-range hypotheses the Python code relies on);
* the Python `assert` statements of `nms` become an `Except` error value;
* the config dict of `batched_nms` is an association list, `dict.pop`
  returns the popped value together with the dictionary state after the pop,
  and `batched_nms` returns the caller's dictionary state after the call.
-/

namespace JADNms

open List

/-- An axis-aligned box `(x1, y1, x2, y2)`. -/
structure Box where
  x1 : ℚ
  y1 : ℚ
  x2 : ℚ
  y2 : ℚ
deriving DecidableEq, Repr

/-- Box area, `(x2-x1) * (y2-y1)` (the convention of the external suppression
primitive, which receives no pixel offset). -/
def area (a : Box) : ℚ := (a.x2 - a.x1) * (a.y2 - a.y1)

/-- Intersection area of two boxes (clamped at 0 in each dimension). -/
def inter (a b : Box) : ℚ :=
  max 0 (min a.x2 b.x2 - max a.x1 b.x1) * max 0 (min a.y2 b.y2 - max a.y1 b.y1)

/-- Intersection over union.  In `ℚ`, division by a zero denominator yields 0,
matching the "degenerate boxes never suppress" behaviour. -/
def iou (a b : Box) : ℚ := inter a b / (area a + area b - inter a b)

/-- Suppression test used by greedy NMS: box `j` is suppressed by the kept box
`i` when their IoU strictly exceeds the threshold. -/
def supp (b : ℕ → Box) (t : ℚ) (i j : ℕ) : Bool := decide (t < iou (b i) (b j))

/-- Comparison used to order candidate indices: strictly higher score first,
ties broken by ascending original index (a stable descending sort by score). -/
def scoreLe (s : ℕ → ℚ) (i j : ℕ) : Bool :=
  decide (s j < s i ∨ (s i = s j ∧ i ≤ j))

/-- Insert an element into a list sorted by `le`. -/
def insertS {α : Type} (le : α → α → Bool) (x : α) : List α → List α
  | [] => [x]
  | y :: ys => if le x y then x :: y :: ys else y :: insertS le x ys

/-- Insertion sort by `le` (a stable sort; with the tie-breaking comparison
`scoreLe` its output is the unique sorted ordering). -/
def sortIdx {α : Type} (le : α → α → Bool) (l : List α) : List α := l.foldr (insertS le) []

/-- Fuelled greedy suppression: repeatedly keep the first candidate and drop
every later candidate whose IoU with it exceeds the threshold. -/
def greedyAux (b : ℕ → Box) (t : ℚ) : ℕ → List ℕ → List ℕ
  | _, [] => []
  | 0, _ :: _ => []
  | fuel + 1, i :: rest =>
      i :: greedyAux b t fuel (rest.filter fun j => !(supp b t i j))

/-- Greedy suppression over a candidate list (the fuel `l.length` always
suffices). -/
def greedy (b : ℕ → Box) (t : ℚ) (l : List ℕ) : List ℕ := greedyAux b t l.length l

/-- Modelled from the spec: the external suppression primitive `jittor.nms`
(not part of this repository).  Per spec §4.1 it sorts the `n` candidate boxes
by score descending (stable, ties by original index) and greedily keeps the
highest-scoring remaining box, removing every remaining box whose IoU with it
exceeds `thr`.  It receives no pixel offset, so areas use `(x2-x1)*(y2-y1)`. -/
def jittorNms (b : ℕ → Box) (s : ℕ → ℚ) (n : ℕ) (thr : ℚ) : List ℕ :=
  greedy b thr (sortIdx (scoreLe s) (List.range n))

/-- Read a 4-element row as a `Box`. -/
def toBox (r : List ℚ) : Box := ⟨r.getD 0 0, r.getD 1 0, r.getD 2 0, r.getD 3 0⟩

/-- `jittor.nonzero(scores > score_threshold)`: the original positions whose
score strictly exceeds the threshold, in ascending order. -/
def validInds (scores : List ℚ) (score_threshold : ℚ) : List ℕ :=
  (List.range scores.length).filter fun i => decide (score_threshold < scores.getD i 0)

/-- `bboxes[valid_mask]`: the box rows surviving score filtering (the rows at
the `valid_inds` positions); the unfiltered rows when no filtering applies. -/
def filteredBoxes (bboxes : List (List ℚ)) (scores : List ℚ) (score_threshold : ℚ) :
    List (List ℚ) :=
  if 0 < score_threshold then (validInds scores score_threshold).map (fun i => bboxes.getD i [])
  else bboxes

/-- `scores[valid_mask]`: the scores surviving score filtering. -/
def filteredScores (scores : List ℚ) (score_threshold : ℚ) : List ℚ :=
  if 0 < score_threshold then (validInds scores score_threshold).map (fun i => scores.getD i 0)
  else scores

/-- The `inds` produced by the `jittor.nms` call inside `NMSop.execute`
(indices into the possibly filtered arrays). -/
def rawKeep (bboxes : List (List ℚ)) (scores : List ℚ) (iou_threshold : ℚ)
    (score_threshold : ℚ) : List ℕ :=
  jittorNms (fun i => toBox ((filteredBoxes bboxes scores score_threshold).getD i []))
    (fun i => (filteredScores scores score_threshold).getD i 0)
    (filteredBoxes bboxes scores score_threshold).length iou_threshold

/-- `inds` after the `max_num` truncation of `NMSop.execute`. -/
def truncKeep (bboxes : List (List ℚ)) (scores : List ℚ) (iou_threshold : ℚ)
    (score_threshold : ℚ) (max_num : ℤ) : List ℕ :=
  if 0 < max_num then (rawKeep bboxes scores iou_threshold score_threshold).take max_num.toNat
  else rawKeep bboxes scores iou_threshold score_threshold

/-- `NMSop.execute` from the source: optional score filtering, suppression via
the `jittor.nms` primitive (the `offset` argument is received but never
forwarded to it), optional `max_num` truncation, and mapping of kept indices
back through `valid_inds`. -/
def NMSop_execute (bboxes : List (List ℚ)) (scores : List ℚ) (iou_threshold : ℚ)
    (offset : ℤ) (score_threshold : ℚ) (max_num : ℤ) : List ℕ :=
  let _ := offset
  if 0 < score_threshold then
    (truncKeep bboxes scores iou_threshold score_threshold max_num).map
      (fun k => (validInds scores score_threshold).getD k 0)
  else truncKeep bboxes scores iou_threshold score_threshold max_num

/-- The error raised by the `assert` statements guarding `nms`. -/
inductive NmsError where
  | invalidArgument
deriving DecidableEq, Repr

instance {ε α : Type} [DecidableEq ε] [DecidableEq α] : DecidableEq (Except ε α) := fun x y =>
  match x, y with
  | .ok a, .ok b => if h : a = b then .isTrue (by rw [h]) else .isFalse (by simp [h])
  | .error a, .error b => if h : a = b then .isTrue (by rw [h]) else .isFalse (by simp [h])
  | .ok _, .error _ => .isFalse (by simp)
  | .error _, .ok _ => .isFalse (by simp)

/-- `nms` from the source: validate the shapes and the `offset` value, run
`NMSop.execute`, and gather `dets = [boxes[inds], scores[inds]]` rows. -/
def nms (boxes : List (List ℚ)) (scores : List ℚ) (iou_threshold : ℚ) (offset : ℤ)
    (score_threshold : ℚ) (max_num : ℤ) :
    Except NmsError (List (List ℚ) × List ℕ) :=
  if boxes.all (fun r => r.length == 4) then
    if boxes.length == scores.length then
      if offset == 0 || offset == 1 then
        let inds := NMSop_execute boxes scores iou_threshold offset score_threshold max_num
        let dets := inds.map (fun i => boxes.getD i [] ++ [scores.getD i 0])
        .ok (dets, inds)
      else .error .invalidArgument
    else .error .invalidArgument
  else .error .invalidArgument

/-! ### `batched_nms` -/

/-- Values storable in the `nms_cfg` dictionary. -/
inductive CfgVal where
  | b (v : Bool)
  | q (v : ℚ)
  | i (v : ℤ)
deriving DecidableEq, Repr

/-- The `nms_cfg` dictionary: an association list keyed by strings. -/
abbrev Cfg : Type := List (String × CfgVal)

/-- `dict.copy()`: a fresh dictionary with the same entries (mutations of the
copy never reach the original). -/
def cfgCopy (d : Cfg) : Cfg := d

/-- `dict.pop(key, default)` semantics: the stored value for `key` (if any)
together with the dictionary state after removing `key`. -/
def dictPop (d : Cfg) (k : String) : Option CfgVal × Cfg :=
  match List.lookup k d with
  | some v => (some v, d.eraseP (fun kv => kv.1 == k))
  | none => (none, d)

/-- `d.pop(k, dflt)` for a boolean-valued entry. -/
def popBool (d : Cfg) (k : String) (dflt : Bool) : Bool × Cfg :=
  match dictPop d k with
  | (some (.b v), d') => (v, d')
  | (_, d') => (dflt, d')

/-- `d.pop(k, dflt)` for a rational-valued entry. -/
def popQ (d : Cfg) (k : String) (dflt : ℚ) : ℚ × Cfg :=
  match dictPop d k with
  | (some (.q v), d') => (v, d')
  | (_, d') => (dflt, d')

/-- `d.pop(k, dflt)` for an integer-valued entry. -/
def popI (d : Cfg) (k : String) (dflt : ℤ) : ℤ × Cfg :=
  match dictPop d k with
  | (some (.i v), d') => (v, d')
  | (_, d') => (dflt, d')

/-- `boxes.max()`: the largest coordinate occurring in any box row. -/
def maxCoord (boxes : List (List ℚ)) : ℚ :=
  match boxes.flatten with
  | [] => 0
  | x :: xs => xs.foldl max x

/-- `boxes + (idxs * (max_coordinate + 1))[:, None]`: each box translated by
its group's offset in all four coordinates. -/
def offsetBoxes (boxes : List (List ℚ)) (idxs : List ℤ) : List (List ℚ) :=
  (List.range boxes.length).map fun i =>
    (boxes.getD i []).map fun c => c + (idxs.getD i 0 : ℚ) * (maxCoord boxes + 1)

/-- Comparison for sorting group ids ascending. -/
def intLe (a b : ℤ) : Bool := decide (a ≤ b)

/-- `jittor.unique(idxs)`: the distinct group ids in ascending order. -/
def uniqueSorted (idxs : List ℤ) : List ℤ := sortIdx intLe idxs.dedup

/-- `(idxs == id).nonzero().view(-1)`: the positions holding group `g`,
in ascending order. -/
def groupMask (idxs : List ℤ) (g : ℤ) : List ℕ :=
  (List.range idxs.length).filter fun i => idxs.getD i 0 == g

/-- One iteration of the per-group loop of the large-input path: run `nms` on
group `g`'s boxes and append the kept global indices (`mask[keep]`, the
positions set in `total_mask`) paired with their post-suppression scores
(`dets[:, -1]`, the values written into `scores_after_nms`). -/
def groupStep (boxes_for_nms : List (List ℚ)) (scores : List ℚ) (idxs : List ℤ)
    (iou_thr : ℚ) (acc : List (ℕ × ℚ)) (g : ℤ) : Except NmsError (List (ℕ × ℚ)) :=
  match nms ((groupMask idxs g).map fun i => boxes_for_nms.getD i [])
      ((groupMask idxs g).map fun i => scores.getD i 0) iou_thr 0 0 (-1) with
  | .error e => .error e
  | .ok (dets, keep) =>
    .ok (acc ++ (keep.zip dets).map fun kd =>
      ((groupMask idxs g).getD kd.1 0, kd.2.getD 4 0))

/-- The accumulated effect of the whole per-group loop, groups processed in
ascending id order. -/
def groupedPairs (boxes_for_nms : List (List ℚ)) (scores : List ℚ) (idxs : List ℤ)
    (iou_thr : ℚ) : Except NmsError (List (ℕ × ℚ)) :=
  (uniqueSorted idxs).foldlM (groupStep boxes_for_nms scores idxs iou_thr) []

/-- `scores_after_nms[i]` after the loop (zero where never assigned). -/
def scoresAfter (pairs : List (ℕ × ℚ)) (i : ℕ) : ℚ :=
  match pairs.find? (fun p => p.1 == i) with
  | some p => p.2
  | none => 0

/-- The small-input branch of `batched_nms`: one `nms` call over the
(possibly offset) boxes; kept boxes are gathered from the original
coordinates and kept scores from `dets[:, 4]`. -/
def batched_small (boxes : List (List ℚ)) (scores : List ℚ)
    (boxes_for_nms : List (List ℚ)) (iou_thr : ℚ) :
    Except NmsError (List (List ℚ) × List ℕ) :=
  match nms boxes_for_nms scores iou_thr 0 0 (-1) with
  | .error e => .error e
  | .ok (dets, keep) =>
    .ok ((keep.map fun i => boxes.getD i []).zipWith (fun r sc => r ++ [sc])
          (dets.map fun r => r.getD 4 0), keep)

/-- The large-input branch of `batched_nms`: per-group `nms`,
`keep = total_mask.nonzero()`, sort by post-suppression score descending,
optional `max_num` truncation, gather of original boxes and final scores. -/
def batched_large (boxes : List (List ℚ)) (scores : List ℚ) (idxs : List ℤ)
    (boxes_for_nms : List (List ℚ)) (iou_thr : ℚ) (max_num : ℤ) :
    Except NmsError (List (List ℚ) × List ℕ) :=
  match groupedPairs boxes_for_nms scores idxs iou_thr with
  | .error e => .error e
  | .ok pairs =>
    let keep0 := (List.range scores.length).filter fun i => pairs.any fun p => p.1 == i
    let keep1 := sortIdx (scoreLe (scoresAfter pairs)) keep0
    let keep2 := if 0 < max_num then keep1.take max_num.toNat else keep1
    .ok ((keep2.map fun i => boxes.getD i []).zipWith (fun r sc => r ++ [sc])
          (keep2.map (scoresAfter pairs)), keep2)

/-- The computation of `batched_nms`: pop the config fields off the copy,
offset the boxes unless class-agnostic, and dispatch on `split_thr`. -/
def batched_body (boxes : List (List ℚ)) (scores : List ℚ) (idxs : List ℤ)
    (nms_cfg : Cfg) (class_agnostic : Bool) :
    Except NmsError (List (List ℚ) × List ℕ) :=
  let ca := popBool (cfgCopy nms_cfg) "class_agnostic" class_agnostic
  let boxes_for_nms := if ca.1 then boxes else offsetBoxes boxes idxs
  let it := popQ ca.2 "iou_thr" 0
  let st := popI it.2 "split_thr" 10000
  if (boxes_for_nms.length : ℤ) < st.1 then
    batched_small boxes scores boxes_for_nms it.1
  else
    let mx := popI st.2 "max_num" (-1)
    batched_large boxes scores idxs boxes_for_nms it.1 mx.1

/-- `batched_nms` from the source.  All `.pop` defaulting acts on a `.copy()`
of the caller's config; the second component of the result is the caller's
dictionary state after the call. -/
def batched_nms (boxes : List (List ℚ)) (scores : List ℚ) (idxs : List ℤ)
    (nms_cfg : Cfg) (class_agnostic : Bool) :
    Except NmsError (List (List ℚ) × List ℕ) × Cfg :=
  (batched_body boxes scores idxs nms_cfg class_agnostic, nms_cfg)

/-- The kept-index component of a `batched_nms` result (empty on error). -/
def keepOf (r : Except NmsError (List (List ℚ) × List ℕ) × Cfg) : List ℕ :=
  match r.1 with
  | .ok dk => dk.2
  | .error _ => []

/-- Whether a `batched_nms` call succeeded. -/
def okOf (r : Except NmsError (List (List ℚ) × List ℕ) × Cfg) : Bool :=
  match r.1 with
  | .ok _ => true
  | .error _ => false

/-! ### Basic properties of the greedy suppression core -/

theorem greedyAux_congr (b : ℕ → Box) (t : ℚ) :
    ∀ (f f' : ℕ) (l : List ℕ), l.length ≤ f → l.length ≤ f' →
      greedyAux b t f l = greedyAux b t f' l := by
  intro f
  induction f with
  | zero =>
    intro f' l hf _
    cases l with
    | nil => cases f' <;> rfl
    | cons i rest => simp at hf
  | succ f ih =>
    intro f' l hf hf'
    cases l with
    | nil => cases f' <;> rfl
    | cons i rest =>
      cases f' with
      | zero => simp at hf'
      | succ f' =>
        simp only [greedyAux]
        have hlen := List.length_filter_le (fun j => !(supp b t i j)) rest
        simp only [List.length_cons, Nat.succ_le_succ_iff] at hf hf'
        rw [ih f' _ (le_trans hlen hf) (le_trans hlen hf')]

theorem greedy_nil (b : ℕ → Box) (t : ℚ) : greedy b t [] = [] := rfl

theorem greedy_cons (b : ℕ → Box) (t : ℚ) (i : ℕ) (rest : List ℕ) :
    greedy b t (i :: rest) =
      i :: greedy b t (rest.filter fun j => !(supp b t i j)) := by
  simp only [greedy, List.length_cons, greedyAux]
  exact congrArg (i :: ·)
    (greedyAux_congr b t _ _ _ (List.length_filter_le _ _) le_rfl)

/-- The kept list is a sublist of the candidate list. -/
theorem greedy_sublist (b : ℕ → Box) (t : ℚ) :
    ∀ (n : ℕ) (l : List ℕ), l.length ≤ n → greedy b t l <+ l := by
  intro n
  induction n with
  | zero =>
    intro l hl
    cases l with
    | nil => simp [greedy_nil]
    | cons i rest => simp at hl
  | succ n ih =>
    intro l hl
    cases l with
    | nil => simp [greedy_nil]
    | cons i rest =>
      rw [greedy_cons]
      simp only [List.length_cons, Nat.succ_le_succ_iff] at hl
      exact (ih _ (le_trans (List.length_filter_le _ _) hl)).trans
        (List.filter_sublist rest) |>.cons₂ i

theorem greedy_sublist' (b : ℕ → Box) (t : ℚ) (l : List ℕ) : greedy b t l <+ l :=
  greedy_sublist b t l.length l le_rfl

theorem greedy_subset {b : ℕ → Box} {t : ℚ} {l : List ℕ} {i : ℕ}
    (h : i ∈ greedy b t l) : i ∈ l :=
  (greedy_sublist' b t l).subset h

theorem greedy_nodup {b : ℕ → Box} {t : ℚ} {l : List ℕ} (h : l.Nodup) :
    (greedy b t l).Nodup :=
  h.sublist (greedy_sublist' b t l)

theorem greedy_pairwise {b : ℕ → Box} {t : ℚ} {l : List ℕ} {R : ℕ → ℕ → Prop}
    (h : l.Pairwise R) : (greedy b t l).Pairwise R :=
  h.sublist (greedy_sublist' b t l)

/-- Every candidate that is dropped by greedy suppression has a kept
suppressor: some kept index whose IoU with it exceeds the threshold. -/
theorem greedy_suppressor (b : ℕ → Box) (t : ℚ) :
    ∀ (n : ℕ) (l : List ℕ), l.length ≤ n → ∀ i ∈ l, i ∉ greedy b t l →
      ∃ j ∈ greedy b t l, supp b t j i = true := by
  intro n
  induction n with
  | zero =>
    intro l hl i hi _
    cases l with
    | nil => simp at hi
    | cons a rest => simp at hl
  | succ n ih =>
    intro l hl i hi hni
    cases l with
    | nil => simp at hi
    | cons a rest =>
      rw [greedy_cons] at hni ⊢
      simp only [List.length_cons, Nat.succ_le_succ_iff] at hl
      rcases List.mem_cons.mp hi with rfl | hrest
      · exact absurd (List.mem_cons_self _ _) hni
      · by_cases hs : supp b t a i = true
        · exact ⟨a, List.mem_cons_self _ _, hs⟩
        · have hmem : i ∈ rest.filter fun j => !(supp b t a j) := by
            simp [List.mem_filter, hrest, hs]
          have hni' : i ∉ greedy b t (rest.filter fun j => !(supp b t a j)) := by
            intro hc
            exact hni (List.mem_cons_of_mem _ hc)
          obtain ⟨j, hj, hsj⟩ :=
            ih _ (le_trans (List.length_filter_le _ _) hl) i hmem hni'
          exact ⟨j, List.mem_cons_of_mem _ hj, hsj⟩

/-- When boxes from different groups can never suppress one another, greedy
suppression commutes with restricting the candidate list to one group. -/
theorem greedy_filter_group (b : ℕ → Box) (t : ℚ) (grp : ℕ → ℤ) (g : ℤ)
    (hcross : ∀ i j, grp i ≠ grp j → supp b t i j = false) :
    ∀ (n : ℕ) (l : List ℕ), l.length ≤ n →
      (greedy b t l).filter (fun j => grp j == g) =
        greedy b t (l.filter (fun j => grp j == g)) := by
  intro n
  induction n with
  | zero =>
    intro l hl
    cases l with
    | nil => simp [greedy_nil]
    | cons a rest => simp at hl
  | succ n ih =>
    intro l hl
    cases l with
    | nil => simp [greedy_nil]
    | cons a rest =>
      simp only [List.length_cons, Nat.succ_le_succ_iff] at hl
      rw [greedy_cons]
      by_cases hg : grp a = g
      · have : (a :: rest).filter (fun j => grp j == g) =
            a :: rest.filter (fun j => grp j == g) := by
          simp [List.filter_cons, hg]
        rw [this, greedy_cons, List.filter_cons]
        simp only [hg, beq_self_eq_true, if_pos]
        rw [ih _ (le_trans (List.length_filter_le _ _) hl), List.filter_filter,
          List.filter_filter]
        have heq : rest.filter (fun x => (grp x == g) && !(supp b t a x)) =
            rest.filter (fun x => !(supp b t a x) && (grp x == g)) := by
          apply List.filter_congr
          intro x _
          rw [Bool.and_comm]
        rw [heq]
      · have h1 : (a :: rest).filter (fun j => grp j == g) =
            rest.filter (fun j => grp j == g) := by
          simp [List.filter_cons, hg]
        rw [h1, List.filter_cons]
        have hcond : (grp a == g) = false := by simp [hg]
        rw [hcond]
        simp only [Bool.false_eq_true, if_neg, not_false_eq_true, if_false]
        rw [ih _ (le_trans (List.length_filter_le _ _) hl), List.filter_filter]
        have heq : rest.filter (fun x => (grp x == g) && !(supp b t a x)) =
            rest.filter (fun x => grp x == g) := by
          apply List.filter_congr
          intro x _
          by_cases hxg : grp x = g
          · have hs : supp b t a x = false := by
              apply hcross
              rw [hxg]
              exact hg
            simp [hs, hxg]
          · simp [hxg]
        rw [heq]

/-- Greedy suppression commutes with reindexing the candidates through `f`,
provided `b'` agrees with `b ∘ f` on the candidates. -/
theorem greedy_map (b : ℕ → Box) (b' : ℕ → Box) (t : ℚ) (f : ℕ → ℕ) :
    ∀ (n : ℕ) (l : List ℕ), l.length ≤ n → (∀ k ∈ l, b (f k) = b' k) →
      greedy b t (l.map f) = (greedy b' t l).map f := by
  intro n
  induction n with
  | zero =>
    intro l hl _
    cases l with
    | nil => simp [greedy_nil]
    | cons a rest => simp at hl
  | succ n ih =>
    intro l hl hb
    cases l with
    | nil => simp [greedy_nil]
    | cons a rest =>
      simp only [List.length_cons, Nat.succ_le_succ_iff] at hl
      simp only [List.map_cons]
      rw [greedy_cons, greedy_cons, List.map_cons]
      congr 1
      have hfilter : (rest.map f).filter (fun j => !(supp b t (f a) j)) =
          (rest.filter (fun j => !(supp b' t a j))).map f := by
        rw [List.filter_map]
        congr 1
        apply List.filter_congr
        intro x hx
        simp only [Function.comp_apply, supp, hb x (List.mem_cons_of_mem _ hx),
          hb a (List.mem_cons_self _ _)]
      rw [hfilter, ih _ (le_trans (List.length_filter_le _ _) hl)
        (fun k hk => hb k (List.mem_cons_of_mem _ (List.mem_of_mem_filter hk)))]

/-! ### Properties of the stable candidate sort -/

theorem insertS_perm {α : Type} (le : α → α → Bool) (x : α) (l : List α) :
    insertS le x l ~ x :: l := by
  induction l with
  | nil => rfl
  | cons y ys ih =>
    simp only [insertS]
    by_cases h : le x y = true
    · rw [if_pos h]
    · rw [if_neg h]
      exact (ih.cons y).trans (List.Perm.swap x y ys)

theorem sortIdx_perm {α : Type} (le : α → α → Bool) (l : List α) : sortIdx le l ~ l := by
  induction l with
  | nil => rfl
  | cons x xs ih =>
    exact (insertS_perm le x (sortIdx le xs)).trans (ih.cons x)

theorem sortIdx_mem {α : Type} (le : α → α → Bool) (l : List α) (a : α) :
    a ∈ sortIdx le l ↔ a ∈ l :=
  (sortIdx_perm le l).mem_iff

theorem insertS_sorted {α : Type} (le : α → α → Bool)
    (htot : ∀ a b, le a b = true ∨ le b a = true)
    (htrans : ∀ a b c, le a b = true → le b c = true → le a c = true)
    (x : α) (l : List α)
    (hl : l.Pairwise (fun a b => le a b = true)) :
    (insertS le x l).Pairwise (fun a b => le a b = true) := by
  induction l with
  | nil => simp [insertS]
  | cons y ys ih =>
    simp only [insertS]
    by_cases h : le x y = true
    · rw [if_pos h]
      refine List.Pairwise.cons ?_ hl
      intro b hb
      rcases List.mem_cons.mp hb with rfl | hb'
      · exact h
      · rcases List.pairwise_cons.mp hl with ⟨hy, _⟩
        exact htrans x y b h (hy b hb')
    · rw [if_neg h]
      obtain ⟨hy, hys⟩ := List.pairwise_cons.mp hl
      refine List.Pairwise.cons ?_ (ih hys)
      intro b hb
      rcases (insertS_perm le x ys).mem_iff.mp hb with hb'
      rcases List.mem_cons.mp hb' with hbx | hb''
      · rw [hbx]
        rcases htot x y with hxy | hyx
        · exact absurd hxy h
        · exact hyx
      · exact hy b hb''

theorem sortIdx_sorted {α : Type} (le : α → α → Bool)
    (htot : ∀ a b, le a b = true ∨ le b a = true)
    (htrans : ∀ a b c, le a b = true → le b c = true → le a c = true)
    (l : List α) : (sortIdx le l).Pairwise (fun a b => le a b = true) := by
  induction l with
  | nil => simp [sortIdx]
  | cons x xs ih => exact insertS_sorted le htot htrans x _ ih

/-- Two sorted permutations of each other are equal when the comparison is
antisymmetric. -/
theorem sorted_perm_eq {α : Type} (le : α → α → Bool)
    (hanti : ∀ a b, le a b = true → le b a = true → a = b)
    {l₁ l₂ : List α} (hp : l₁ ~ l₂)
    (h₁ : l₁.Pairwise (fun a b => le a b = true))
    (h₂ : l₂.Pairwise (fun a b => le a b = true)) : l₁ = l₂ := by
  haveI : IsAntisymm α (fun a b => le a b = true) := ⟨hanti⟩
  exact List.eq_of_perm_of_sorted hp h₁ h₂

theorem scoreLe_total (s : ℕ → ℚ) (a b : ℕ) :
    scoreLe s a b = true ∨ scoreLe s b a = true := by
  simp only [scoreLe, decide_eq_true_eq]
  rcases lt_trichotomy (s a) (s b) with h | h | h
  · exact Or.inr (Or.inl h)
  · rcases Nat.le_total a b with hab | hba
    · exact Or.inl (Or.inr ⟨h, hab⟩)
    · exact Or.inr (Or.inr ⟨h.symm, hba⟩)
  · exact Or.inl (Or.inl h)

theorem scoreLe_trans (s : ℕ → ℚ) (a b c : ℕ) :
    scoreLe s a b = true → scoreLe s b c = true → scoreLe s a c = true := by
  simp only [scoreLe, decide_eq_true_eq]
  rintro (h₁ | ⟨h₁, h₁'⟩) (h₂ | ⟨h₂, h₂'⟩)
  · exact Or.inl (h₂.trans h₁)
  · refine Or.inl ?_
    rw [← h₂]
    exact h₁
  · refine Or.inl ?_
    rw [h₁]
    exact h₂
  · exact Or.inr ⟨h₁.trans h₂, h₁'.trans h₂'⟩

theorem scoreLe_antisymm (s : ℕ → ℚ) (a b : ℕ) :
    scoreLe s a b = true → scoreLe s b a = true → a = b := by
  simp only [scoreLe, decide_eq_true_eq]
  rintro (h₁ | ⟨h₁, h₁'⟩) (h₂ | ⟨h₂, h₂'⟩)
  · exact absurd h₁ (lt_asymm h₂)
  · exact absurd h₁ (h₂ ▸ lt_irrefl _)
  · exact absurd h₂ (h₁ ▸ lt_irrefl _)
  · exact Nat.le_antisymm h₁' h₂'

/-- Sorting restricted to a group equals restricting the sorted list to the
group: both are sorted permutations of the same list under the tie-broken
(hence antisymmetric) comparison. -/
theorem sortIdx_filter (s : ℕ → ℚ) (p : ℕ → Bool) (l : List ℕ) :
    (sortIdx (scoreLe s) l).filter p = sortIdx (scoreLe s) (l.filter p) := by
  apply sorted_perm_eq (scoreLe s) (scoreLe_antisymm s)
  · exact ((sortIdx_perm _ l).filter p).trans (sortIdx_perm _ (l.filter p)).symm
  · exact (sortIdx_sorted _ (scoreLe_total s) (scoreLe_trans s) l).sublist
      (List.filter_sublist _)
  · exact sortIdx_sorted _ (scoreLe_total s) (scoreLe_trans s) _

/-! ### Properties of `jittorNms`, `validInds` and `NMSop_execute` -/

theorem jittorNms_mem {b : ℕ → Box} {s : ℕ → ℚ} {n : ℕ} {t : ℚ} {i : ℕ}
    (h : i ∈ jittorNms b s n t) : i < n := by
  have := greedy_subset h
  rw [sortIdx_mem, List.mem_range] at this
  exact this

theorem jittorNms_nodup (b : ℕ → Box) (s : ℕ → ℚ) (n : ℕ) (t : ℚ) :
    (jittorNms b s n t).Nodup :=
  greedy_nodup ((sortIdx_perm _ _).nodup_iff.mpr (List.nodup_range n))

theorem jittorNms_pairwise (b : ℕ → Box) (s : ℕ → ℚ) (n : ℕ) (t : ℚ) :
    (jittorNms b s n t).Pairwise (fun i j => scoreLe s i j = true) :=
  greedy_pairwise (sortIdx_sorted _ (scoreLe_total s) (scoreLe_trans s) _)

theorem validInds_mem (scores : List ℚ) (st : ℚ) (i : ℕ) :
    i ∈ validInds scores st ↔ i < scores.length ∧ st < scores.getD i 0 := by
  simp [validInds, List.mem_filter, List.mem_range]

theorem validInds_nodup (scores : List ℚ) (st : ℚ) : (validInds scores st).Nodup :=
  (List.nodup_range scores.length).filter _

theorem validInds_getD_mem (scores : List ℚ) (st : ℚ) {k : ℕ}
    (hk : k < (validInds scores st).length) :
    (validInds scores st).getD k 0 ∈ validInds scores st := by
  rw [List.getD_eq_getElem _ _ hk]
  exact List.getElem_mem hk

theorem filteredBoxes_length (bboxes : List (List ℚ)) (scores : List ℚ) (st : ℚ)
    (hst : 0 < st) :
    (filteredBoxes bboxes scores st).length = (validInds scores st).length := by
  simp [filteredBoxes, hst]

theorem rawKeep_mem {bboxes : List (List ℚ)} {scores : List ℚ} {t st : ℚ} {i : ℕ}
    (h : i ∈ rawKeep bboxes scores t st) :
    i < (filteredBoxes bboxes scores st).length :=
  jittorNms_mem h

theorem truncKeep_sublist (bboxes : List (List ℚ)) (scores : List ℚ) (t st : ℚ)
    (mn : ℤ) : truncKeep bboxes scores t st mn <+ rawKeep bboxes scores t st := by
  unfold truncKeep
  by_cases h : 0 < mn
  · rw [if_pos h]
    exact List.take_sublist _ _
  · rw [if_neg h]

theorem truncKeep_mem {bboxes : List (List ℚ)} {scores : List ℚ} {t st : ℚ}
    {mn : ℤ} {i : ℕ} (h : i ∈ truncKeep bboxes scores t st mn) :
    i < (filteredBoxes bboxes scores st).length :=
  rawKeep_mem ((truncKeep_sublist bboxes scores t st mn).subset h)

theorem truncKeep_nodup (bboxes : List (List ℚ)) (scores : List ℚ) (t st : ℚ)
    (mn : ℤ) : (truncKeep bboxes scores t st mn).Nodup :=
  (jittorNms_nodup _ _ _ _).sublist (truncKeep_sublist bboxes scores t st mn)

theorem truncKeep_pairwise (bboxes : List (List ℚ)) (scores : List ℚ) (t st : ℚ)
    (mn : ℤ) :
    (truncKeep bboxes scores t st mn).Pairwise
      (fun i j => scoreLe (fun k => (filteredScores scores st).getD k 0) i j = true) :=
  (jittorNms_pairwise _ _ _ _).sublist (truncKeep_sublist bboxes scores t st mn)

/-- On the filtering path, position `k` of the filtered score array holds the
original score at original index `valid_inds[k]`. -/
theorem filteredScores_getD (scores : List ℚ) (st : ℚ) (hst : 0 < st) {k : ℕ}
    (hk : k < (validInds scores st).length) :
    (filteredScores scores st).getD k 0 =
      scores.getD ((validInds scores st).getD k 0) 0 := by
  unfold filteredScores
  rw [if_pos hst]
  rw [List.getD_eq_getElem _ _ (by simpa using hk), List.getD_eq_getElem _ _ hk,
    List.getElem_map]

/-- Every index returned by `NMSop.execute` is an in-range original index
(when boxes and scores have equal leading dimension). -/
theorem execute_mem_lt {bboxes : List (List ℚ)} {scores : List ℚ} {t : ℚ} {off : ℤ}
    {st : ℚ} {mn : ℤ} (hlen : bboxes.length = scores.length) {i : ℕ}
    (h : i ∈ NMSop_execute bboxes scores t off st mn) : i < bboxes.length := by
  unfold NMSop_execute at h
  by_cases hst : 0 < st
  · rw [if_pos hst] at h
    obtain ⟨k, hk, rfl⟩ := List.mem_map.mp h
    have hk' : k < (validInds scores st).length := by
      have := truncKeep_mem hk
      rwa [filteredBoxes_length _ _ _ hst] at this
    have := (validInds_mem scores st _).mp (validInds_getD_mem scores st hk')
    omega
  · rw [if_neg hst] at h
    have := truncKeep_mem h
    unfold filteredBoxes at this
    rwa [if_neg hst] at this

/-- The indices returned by `NMSop.execute` are pairwise distinct. -/
theorem execute_nodup (bboxes : List (List ℚ)) (scores : List ℚ) (t : ℚ) (off : ℤ)
    (st : ℚ) (mn : ℤ) : (NMSop_execute bboxes scores t off st mn).Nodup := by
  unfold NMSop_execute
  by_cases hst : 0 < st
  · rw [if_pos hst]
    apply (truncKeep_nodup bboxes scores t st mn).map_on
    intro x hx y hy hxy
    have hx' : x < (validInds scores st).length := by
      have := truncKeep_mem hx
      rwa [filteredBoxes_length _ _ _ hst] at this
    have hy' : y < (validInds scores st).length := by
      have := truncKeep_mem hy
      rwa [filteredBoxes_length _ _ _ hst] at this
    rw [List.getD_eq_getElem _ _ hx', List.getD_eq_getElem _ _ hy'] at hxy
    exact ((validInds_nodup scores st).getElem_inj_iff).mp hxy
  · rw [if_neg hst]
    exact truncKeep_nodup bboxes scores t st mn

/-- Scores along `NMSop.execute`'s returned index sequence are monotonically
non-increasing. -/
theorem execute_pairwise_scores (bboxes : List (List ℚ)) (scores : List ℚ) (t : ℚ)
    (off : ℤ) (st : ℚ) (mn : ℤ) :
    (NMSop_execute bboxes scores t off st mn).Pairwise
      (fun i j => scores.getD j 0 ≤ scores.getD i 0) := by
  unfold NMSop_execute
  by_cases hst : 0 < st
  · rw [if_pos hst]
    rw [List.pairwise_map]
    apply (truncKeep_pairwise bboxes scores t st mn).imp_of_mem
    intro a c ha hc hle
    have ha' : a < (validInds scores st).length := by
      have := truncKeep_mem ha
      rwa [filteredBoxes_length _ _ _ hst] at this
    have hc' : c < (validInds scores st).length := by
      have := truncKeep_mem hc
      rwa [filteredBoxes_length _ _ _ hst] at this
    rw [← filteredScores_getD scores st hst ha', ← filteredScores_getD scores st hst hc']
    simp only [scoreLe, decide_eq_true_eq] at hle
    rcases hle with hlt | ⟨heq, _⟩
    · exact hlt.le
    · exact heq.ge
  · rw [if_neg hst]
    apply (truncKeep_pairwise bboxes scores t st mn).imp
    intro a c hle
    simp only [scoreLe, decide_eq_true_eq] at hle
    have : filteredScores scores st = scores := by
      unfold filteredScores
      rw [if_neg hst]
    rw [this] at hle
    rcases hle with hlt | ⟨heq, _⟩
    · exact hlt.le
    · exact heq.ge

/-! ### Properties of `nms` -/

/-- Inversion of a successful `nms` call: all validations passed, the indices
are those of `NMSop.execute`, and `dets` gathers box rows with their scores. -/
theorem nms_ok {boxes : List (List ℚ)} {scores : List ℚ} {t : ℚ} {off : ℤ}
    {st : ℚ} {mn : ℤ} {dets : List (List ℚ)} {inds : List ℕ}
    (h : nms boxes scores t off st mn = .ok (dets, inds)) :
    (∀ r ∈ boxes, r.length = 4) ∧ boxes.length = scores.length ∧
      (off = 0 ∨ off = 1) ∧
      inds = NMSop_execute boxes scores t off st mn ∧
      dets = inds.map (fun i => boxes.getD i [] ++ [scores.getD i 0]) := by
  unfold nms at h
  by_cases h1 : boxes.all (fun r => r.length == 4) = true
  · rw [if_pos h1] at h
    by_cases h2 : (boxes.length == scores.length) = true
    · rw [if_pos h2] at h
      by_cases h3 : (off == 0 || off == 1) = true
      · rw [if_pos h3] at h
        simp only [Except.ok.injEq, Prod.mk.injEq] at h
        obtain ⟨hdets, hinds⟩ := h
        refine ⟨?_, ?_, ?_, hinds.symm, ?_⟩
        · intro r hr
          have := List.all_eq_true.mp h1 r hr
          simpa using this
        · simpa using h2
        · simpa using h3
        · rw [← hdets, hinds]
      · rw [if_neg h3] at h
        exact absurd h (by simp)
    · rw [if_neg h2] at h
      exact absurd h (by simp)
  · rw [if_neg h1] at h
    exact absurd h (by simp)

/-- `(l ++ [x])[4]` is `x` for a 4-element `l` (the score column of a det row). -/
theorem getD_four_append {l : List ℚ} {x : ℚ} (h : l.length = 4) :
    (l ++ [x]).getD 4 0 = x := by
  rw [List.getD_eq_getElem _ _ (by simp [h])]
  rw [List.getElem_append_right (by omega)]
  simp [h]

/-- C6: `nms` rejects malformed shapes (box rows not of width 4, boxes/scores
length mismatch) and offsets outside `{0, 1}` with `InvalidArgument`,
producing no partial result: the whole call returns the error value. -/
theorem claim_C6_invalid_arguments (boxes : List (List ℚ)) (scores : List ℚ)
    (t : ℚ) (off : ℤ) (st : ℚ) (mn : ℤ)
    (h : (∃ r ∈ boxes, r.length ≠ 4) ∨ boxes.length ≠ scores.length ∨
      (off ≠ 0 ∧ off ≠ 1)) :
    nms boxes scores t off st mn = .error .invalidArgument := by
  unfold nms
  by_cases h1 : boxes.all (fun r => r.length == 4) = true
  · rw [if_pos h1]
    by_cases h2 : (boxes.length == scores.length) = true
    · rw [if_pos h2]
      by_cases h3 : (off == 0 || off == 1) = true
      · exfalso
        rcases h with ⟨r, hr, hlen⟩ | hne | ⟨hn0, hn1⟩
        · exact hlen (by simpa using List.all_eq_true.mp h1 r hr)
        · exact hne (by simpa using h2)
        · have h3' : off = 0 ∨ off = 1 := by simpa using h3
          rcases h3' with h0 | h1'
          · exact hn0 h0
          · exact hn1 h1'
      · rw [if_neg h3]
    · rw [if_neg h2]
  · rw [if_neg h1]

theorem claim_C6_witness :
    (((2:ℤ) ≠ 0 ∧ (2:ℤ) ≠ 1) ∨ True) ∧
      nms [[0,0,1,1]] [1/2] (1/2) 2 0 (-1) = .error .invalidArgument :=
  ⟨Or.inl ⟨by decide, by decide⟩,
    claim_C6_invalid_arguments _ _ _ _ _ _ (Or.inr (Or.inr ⟨by decide, by decide⟩))⟩

/-- C7: contrary to the claim (and to `nms`'s own docstring), the `offset`
argument has no effect on suppression: it is validated and then dropped,
never reaching the suppression primitive, so the result for `offset = 1`
always equals the result for `offset = 0`.  In particular on
boxes `[[0,0,10,10],[0,0,10,6]]` with threshold `0.62` the pixel-inclusive
IoU would be `77/121 > 0.62` (suppressing box 1), yet the code keeps both
boxes with `offset = 1` exactly as with `offset = 0`. -/
theorem claim_C7_offset_ignored :
    (∀ (boxes : List (List ℚ)) (scores : List ℚ) (t st : ℚ) (mn : ℤ),
        nms boxes scores t 1 st mn = nms boxes scores t 0 st mn) ∧
      nms [[0,0,10,10],[0,0,10,6]] [9/10, 8/10] (62/100) 1 0 (-1) =
        .ok ([[0,0,10,10,9/10],[0,0,10,6,8/10]], [0,1]) := by
  constructor
  · intro boxes scores t st mn
    unfold nms
    norm_num [NMSop_execute]
  · norm_num [nms, NMSop_execute, truncKeep, rawKeep, filteredBoxes, filteredScores,
      jittorNms, greedy, greedyAux, sortIdx, insertS, scoreLe, supp, iou, inter, area,
      toBox, validInds, List.range_succ]

/-- C2: for any successful `nms` call, the score column (`dets[:, 4]`) is
monotonically non-increasing down the returned rows. -/
theorem claim_C2_dets_scores_monotone (boxes : List (List ℚ)) (scores : List ℚ)
    (t : ℚ) (off : ℤ) (st : ℚ) (mn : ℤ) (dets : List (List ℚ)) (inds : List ℕ)
    (h : nms boxes scores t off st mn = .ok (dets, inds)) :
    dets.Pairwise (fun r r' => r'.getD 4 0 ≤ r.getD 4 0) := by
  obtain ⟨hrows, hlen, _, hinds, hdets⟩ := nms_ok h
  rw [hdets, List.pairwise_map]
  have hp := execute_pairwise_scores boxes scores t off st mn
  rw [← hinds] at hp
  apply hp.imp_of_mem
  intro a c ha hc hle
  have ha' : a < boxes.length := execute_mem_lt hlen (hinds ▸ ha)
  have hc' : c < boxes.length := execute_mem_lt hlen (hinds ▸ hc)
  have hra : (boxes.getD a []).length = 4 :=
    hrows _ (by rw [List.getD_eq_getElem _ _ ha']; exact List.getElem_mem ha')
  have hrc : (boxes.getD c []).length = 4 :=
    hrows _ (by rw [List.getD_eq_getElem _ _ hc']; exact List.getElem_mem hc')
  rw [getD_four_append hra, getD_four_append hrc]
  exact hle

set_option maxHeartbeats 2000000 in
theorem claim_C2_witness :
    nms [[0,0,4,4],[10,10,14,14],[0,0,4,5]] [1/2, 9/10, 1/4] (1/2) 0 0 (-1) =
        .ok ([[10,10,14,14,9/10],[0,0,4,4,1/2]], [1,0]) ∧
      ([[10,10,14,14,(9:ℚ)/10],[0,0,4,4,1/2]]).Pairwise
        (fun r r' => r'.getD 4 0 ≤ r.getD 4 0) :=
  ⟨by norm_num [nms, NMSop_execute, truncKeep, rawKeep, filteredBoxes, filteredScores,
      jittorNms, greedy, greedyAux, sortIdx, insertS, scoreLe, supp, iou, inter, area,
      toBox, validInds, List.range_succ],
    claim_C2_dets_scores_monotone [[0,0,4,4],[10,10,14,14],[0,0,4,5]] [1/2, 9/10, 1/4]
      (1/2) 0 0 (-1) [[10,10,14,14,9/10],[0,0,4,4,1/2]] [1,0]
      (by norm_num [nms, NMSop_execute, truncKeep, rawKeep, filteredBoxes, filteredScores,
        jittorNms, greedy, greedyAux, sortIdx, insertS, scoreLe, supp, iou, inter, area,
        toBox, validInds, List.range_succ])⟩

/-- With a positive `max_num`, `NMSop.execute` is the untruncated result cut
to its first `max_num` entries. -/
theorem execute_take (bboxes : List (List ℚ)) (scores : List ℚ) (t : ℚ) (off : ℤ)
    (st : ℚ) {mn : ℤ} (hmn : 0 < mn) :
    NMSop_execute bboxes scores t off st mn =
      (NMSop_execute bboxes scores t off st (-1)).take mn.toNat := by
  have htr : truncKeep bboxes scores t st mn =
      (truncKeep bboxes scores t st (-1)).take mn.toNat := by
    unfold truncKeep
    rw [if_pos hmn, if_neg (by omega)]
  unfold NMSop_execute
  by_cases hst : 0 < st
  · rw [if_pos hst, if_pos hst, htr, List.map_take]
  · rw [if_neg hst, if_neg hst, htr]

/-- C3: with `max_num > 0` the returned kept-index sequence is the first
`max_num` entries of the untruncated (score-descending) kept sequence, has at
most `max_num` entries, and dominates in score every entry it cuts off. -/
theorem claim_C3_max_num_truncation (bboxes : List (List ℚ)) (scores : List ℚ)
    (t : ℚ) (off : ℤ) (st : ℚ) (mn : ℤ) (hmn : 0 < mn) :
    NMSop_execute bboxes scores t off st mn =
        (NMSop_execute bboxes scores t off st (-1)).take mn.toNat ∧
      ((NMSop_execute bboxes scores t off st mn).length : ℤ) ≤ mn ∧
      ∀ i ∈ NMSop_execute bboxes scores t off st mn,
        ∀ j ∈ NMSop_execute bboxes scores t off st (-1),
          j ∉ NMSop_execute bboxes scores t off st mn →
            scores.getD j 0 ≤ scores.getD i 0 := by
  have htake := execute_take bboxes scores t off st hmn
  refine ⟨htake, ?_, ?_⟩
  · rw [htake]
    have hlen := List.length_take_le mn.toNat (NMSop_execute bboxes scores t off st (-1))
    omega
  · intro i hi j hj hnj
    set full := NMSop_execute bboxes scores t off st (-1) with hfull
    have hp : full.Pairwise (fun a c => scores.getD c 0 ≤ scores.getD a 0) :=
      execute_pairwise_scores bboxes scores t off st (-1)
    have hsplit : full = full.take mn.toNat ++ full.drop mn.toNat :=
      (List.take_append_drop mn.toNat full).symm
    rw [hsplit] at hp
    obtain ⟨-, -, hcross⟩ := List.pairwise_append.mp hp
    have hjdrop : j ∈ full.drop mn.toNat := by
      rw [hsplit] at hj
      rcases List.mem_append.mp hj with hjt | hjd
      · exact absurd (htake ▸ hjt) hnj
      · exact hjd
    exact hcross i (htake ▸ hi) j hjdrop

theorem claim_C3_witness :
    (0:ℤ) < 1 ∧
      (NMSop_execute [[0,0,4,4],[10,10,14,14]] [1/2, 9/10] (1/2) 0 0 1 =
          (NMSop_execute [[0,0,4,4],[10,10,14,14]] [1/2, 9/10] (1/2) 0 0 (-1)).take 1 ∧
        ((NMSop_execute [[0,0,4,4],[10,10,14,14]] [1/2, 9/10] (1/2) 0 0 1).length : ℤ) ≤ 1 ∧
        ∀ i ∈ NMSop_execute [[0,0,4,4],[10,10,14,14]] [1/2, 9/10] (1/2) 0 0 1,
          ∀ j ∈ NMSop_execute [[0,0,4,4],[10,10,14,14]] [1/2, 9/10] (1/2) 0 0 (-1),
            j ∉ NMSop_execute [[0,0,4,4],[10,10,14,14]] [1/2, 9/10] (1/2) 0 0 1 →
              [(1:ℚ)/2, 9/10].getD j 0 ≤ [(1:ℚ)/2, 9/10].getD i 0) :=
  ⟨by decide,
    claim_C3_max_num_truncation [[0,0,4,4],[10,10,14,14]] [1/2, 9/10] (1/2) 0 0 1
      (by decide)⟩

/-- C4: with `score_threshold > 0`, `valid_inds` records exactly the original
positions whose score exceeds the threshold, suppression runs on the filtered
arrays with the kept positions mapped back through `valid_inds`, and hence
every returned index is an original in-range position whose score exceeds the
threshold (boxes with score ≤ threshold are removed before suppression). -/
theorem claim_C4_score_threshold_filtering (bboxes : List (List ℚ)) (scores : List ℚ)
    (t : ℚ) (off : ℤ) (mn : ℤ) (st : ℚ) (hst : 0 < st) :
    (∀ i, i ∈ validInds scores st ↔ (i < scores.length ∧ st < scores.getD i 0)) ∧
      NMSop_execute bboxes scores t off st mn =
        (truncKeep bboxes scores t st mn).map
          (fun k => (validInds scores st).getD k 0) ∧
      ∀ i ∈ NMSop_execute bboxes scores t off st mn,
        i < scores.length ∧ st < scores.getD i 0 := by
  refine ⟨validInds_mem scores st, ?_, ?_⟩
  · unfold NMSop_execute
    rw [if_pos hst]
  · intro i hi
    unfold NMSop_execute at hi
    rw [if_pos hst] at hi
    obtain ⟨k, hk, rfl⟩ := List.mem_map.mp hi
    have hk' : k < (validInds scores st).length := by
      have := truncKeep_mem hk
      rwa [filteredBoxes_length _ _ _ hst] at this
    exact (validInds_mem scores st _).mp (validInds_getD_mem scores st hk')

theorem claim_C4_witness :
    (0:ℚ) < 1/2 ∧
      ((∀ i, i ∈ validInds [9/10, 2/5] (1/2) ↔
          (i < 2 ∧ (1:ℚ)/2 < [(9:ℚ)/10, 2/5].getD i 0)) ∧
        NMSop_execute [[0,0,4,4],[0,0,4,4]] [9/10, 2/5] (1/2) 0 (1/2) (-1) =
          (truncKeep [[0,0,4,4],[0,0,4,4]] [9/10, 2/5] (1/2) (1/2) (-1)).map
            (fun k => (validInds [9/10, 2/5] (1/2)).getD k 0) ∧
        ∀ i ∈ NMSop_execute [[0,0,4,4],[0,0,4,4]] [9/10, 2/5] (1/2) 0 (1/2) (-1),
          i < 2 ∧ (1:ℚ)/2 < [(9:ℚ)/10, 2/5].getD i 0) :=
  ⟨by norm_num,
    claim_C4_score_threshold_filtering [[0,0,4,4],[0,0,4,4]] [9/10, 2/5]
      (1/2) 0 (-1) (1/2) (by norm_num)⟩

/-! ### Geometry of the group offset trick -/

theorem le_foldl_max (zs : List ℚ) : ∀ y : ℚ, y ≤ zs.foldl max y := by
  induction zs with
  | nil => intro y; exact le_refl y
  | cons z zs ih =>
    intro y
    calc y ≤ max y z := le_max_left y z
    _ ≤ zs.foldl max (max y z) := ih (max y z)

theorem mem_le_foldl_max (zs : List ℚ) : ∀ (y x : ℚ), x ∈ zs → x ≤ zs.foldl max y := by
  induction zs with
  | nil => intro y x hx; simp at hx
  | cons z zs ih =>
    intro y x hx
    rcases List.mem_cons.mp hx with rfl | hx'
    · calc x ≤ max y x := le_max_right y x
      _ ≤ zs.foldl max (max y x) := le_foldl_max zs (max y x)
    · exact ih (max y z) x hx'

/-- Every coordinate of every box is bounded by `boxes.max()`. -/
theorem le_maxCoord {boxes : List (List ℚ)} {x : ℚ} (hx : x ∈ boxes.flatten) :
    x ≤ maxCoord boxes := by
  unfold maxCoord
  cases h : boxes.flatten with
  | nil => rw [h] at hx; simp at hx
  | cons y ys =>
    rw [h] at hx
    rcases List.mem_cons.mp hx with rfl | hx'
    · exact le_foldl_max ys x
    · exact mem_le_foldl_max ys y x hx'

theorem coord_mem_flatten {boxes : List (List ℚ)} {i : ℕ} (hi : i < boxes.length)
    {c : ℚ} (hc : c ∈ boxes.getD i []) : c ∈ boxes.flatten := by
  rw [List.getD_eq_getElem _ _ hi] at hc
  exact List.mem_flatten.mpr ⟨boxes[i], List.getElem_mem hi, hc⟩

/-- Boxes separated along the x axis have empty intersection. -/
theorem inter_eq_zero_of_sep {a c : Box} (h : a.x2 < c.x1) :
    inter a c = 0 ∧ inter c a = 0 := by
  constructor
  · unfold inter
    have h1 : min a.x2 c.x2 - max a.x1 c.x1 ≤ 0 := by
      have := min_le_left a.x2 c.x2
      have := le_max_right a.x1 c.x1
      linarith
    rw [max_eq_left h1]
    ring
  · unfold inter
    have h1 : min c.x2 a.x2 - max c.x1 a.x1 ≤ 0 := by
      have := min_le_right c.x2 a.x2
      have := le_max_left c.x1 a.x1
      linarith
    rw [max_eq_left h1]
    ring

theorem iou_eq_zero_of_inter {a c : Box} (h : inter a c = 0) : iou a c = 0 := by
  unfold iou
  rw [h]
  exact zero_div _

theorem supp_eq_false_of_iou {b : ℕ → Box} {t : ℚ} {i j : ℕ}
    (ht : 0 ≤ t) (h : iou (b i) (b j) = 0) : supp b t i j = false := by
  unfold supp
  rw [h]
  exact decide_eq_false (not_lt.mpr ht)

theorem offsetBoxes_length (boxes : List (List ℚ)) (idxs : List ℤ) :
    (offsetBoxes boxes idxs).length = boxes.length := by
  simp [offsetBoxes]

theorem offsetBoxes_getD {boxes : List (List ℚ)} {idxs : List ℤ} {i : ℕ}
    (hi : i < boxes.length) :
    (offsetBoxes boxes idxs).getD i [] =
      (boxes.getD i []).map
        (fun c => c + (idxs.getD i 0 : ℚ) * (maxCoord boxes + 1)) := by
  unfold offsetBoxes
  rw [List.getD_eq_getElem _ _ (by simpa using hi), List.getElem_map,
    List.getElem_range]

theorem offsetBoxes_getD_of_ge {boxes : List (List ℚ)} {idxs : List ℤ} {i : ℕ}
    (hi : boxes.length ≤ i) : (offsetBoxes boxes idxs).getD i [] = [] := by
  apply List.getD_eq_default
  rw [offsetBoxes_length]
  exact hi

theorem inter_eq_zero_of_nonpos {a c : Box} (h : min a.x2 c.x2 - max a.x1 c.x1 ≤ 0) :
    inter a c = 0 := by
  unfold inter
  rw [max_eq_left h]
  ring

theorem getD_map_lt {l : List ℚ} {f : ℚ → ℚ} {i : ℕ} (h : i < l.length) :
    (l.map f).getD i 0 = f (l.getD i 0) := by
  rw [List.getD_eq_getElem _ _ (by simpa using h), List.getD_eq_getElem _ _ h,
    List.getElem_map]

theorem toBox_map_add {row : List ℚ} (h : row.length = 4) (d : ℚ) :
    toBox (row.map (fun c => c + d)) =
      ⟨row.getD 0 0 + d, row.getD 1 0 + d, row.getD 2 0 + d, row.getD 3 0 + d⟩ := by
  unfold toBox
  rw [getD_map_lt (by omega), getD_map_lt (by omega), getD_map_lt (by omega),
    getD_map_lt (by omega)]

/-- Bounds on an offset box: all of its x-extent lies in the band
`[g*(M+1), g*(M+1)+M]` of its group. -/
theorem offsetBox_bounds {boxes : List (List ℚ)} {idxs : List ℤ}
    (hrows : ∀ r ∈ boxes, r.length = 4)
    (hnn : ∀ r ∈ boxes, ∀ c ∈ r, 0 ≤ c)
    (hids : ∀ g ∈ idxs, 0 ≤ g)
    (hilen : idxs.length = boxes.length)
    {k : ℕ} (hk : k < boxes.length) :
    0 ≤ (idxs.getD k 0 : ℚ) ∧ 0 ≤ maxCoord boxes ∧
      (idxs.getD k 0 : ℚ) * (maxCoord boxes + 1) ≤
        (toBox ((offsetBoxes boxes idxs).getD k [])).x1 ∧
      (toBox ((offsetBoxes boxes idxs).getD k [])).x2 ≤
        (idxs.getD k 0 : ℚ) * (maxCoord boxes + 1) + maxCoord boxes := by
  have hrow : boxes.getD k [] ∈ boxes := by
    rw [List.getD_eq_getElem _ _ hk]
    exact List.getElem_mem hk
  have h4 : (boxes.getD k []).length = 4 := hrows _ hrow
  have hl0 : (0:ℕ) < (boxes.getD k []).length := by omega
  have hl2 : (2:ℕ) < (boxes.getD k []).length := by omega
  have h0mem : (boxes.getD k []).getD 0 0 ∈ boxes.getD k [] := by
    rw [List.getD_eq_getElem _ _ hl0]
    exact List.getElem_mem hl0
  have h2mem : (boxes.getD k []).getD 2 0 ∈ boxes.getD k [] := by
    rw [List.getD_eq_getElem _ _ hl2]
    exact List.getElem_mem hl2
  have h0nn : 0 ≤ (boxes.getD k []).getD 0 0 := hnn _ hrow _ h0mem
  have h0le : (boxes.getD k []).getD 0 0 ≤ maxCoord boxes :=
    le_maxCoord (coord_mem_flatten hk h0mem)
  have h2le : (boxes.getD k []).getD 2 0 ≤ maxCoord boxes :=
    le_maxCoord (coord_mem_flatten hk h2mem)
  have hid : 0 ≤ (idxs.getD k 0 : ℚ) := by
    have hk' : k < idxs.length := by omega
    have : idxs.getD k 0 ∈ idxs := by
      rw [List.getD_eq_getElem _ _ hk']
      exact List.getElem_mem hk'
    exact_mod_cast hids _ this
  have hM : 0 ≤ maxCoord boxes := le_trans h0nn h0le
  rw [offsetBoxes_getD hk, toBox_map_add h4]
  refine ⟨hid, hM, ?_, ?_⟩
  · simp only
    linarith
  · simp only
    linarith

/-- The offset trick makes suppression between different groups impossible:
the suppression predicate is `false` for every cross-group pair (for
nonnegative coordinates, nonnegative group ids and a nonnegative threshold). -/
theorem offset_supp_false {boxes : List (List ℚ)} {idxs : List ℤ} {t : ℚ}
    (hrows : ∀ r ∈ boxes, r.length = 4)
    (hnn : ∀ r ∈ boxes, ∀ c ∈ r, 0 ≤ c)
    (hids : ∀ g ∈ idxs, 0 ≤ g)
    (hilen : idxs.length = boxes.length)
    (ht : 0 ≤ t) :
    ∀ i j, idxs.getD i 0 ≠ idxs.getD j 0 →
      supp (fun k => toBox ((offsetBoxes boxes idxs).getD k [])) t i j = false := by
  intro i j hne
  apply supp_eq_false_of_iou ht
  apply iou_eq_zero_of_inter
  by_cases hi : i < boxes.length
  · by_cases hj : j < boxes.length
    · obtain ⟨hidi, hM, hx1i, hx2i⟩ := offsetBox_bounds hrows hnn hids hilen hi
      obtain ⟨hidj, -, hx1j, hx2j⟩ := offsetBox_bounds hrows hnn hids hilen hj
      rcases lt_trichotomy (idxs.getD i 0) (idxs.getD j 0) with hlt | heq | hgt
      · have hgap : ((idxs.getD i 0 : ℚ)) + 1 ≤ (idxs.getD j 0 : ℚ) := by
          exact_mod_cast Int.add_one_le_iff.mpr hlt
        have hsep : (toBox ((offsetBoxes boxes idxs).getD i [])).x2 <
            (toBox ((offsetBoxes boxes idxs).getD j [])).x1 := by
          have : ((idxs.getD i 0 : ℚ) + 1) * (maxCoord boxes + 1) ≤
              (idxs.getD j 0 : ℚ) * (maxCoord boxes + 1) := by
            apply mul_le_mul_of_nonneg_right hgap
            linarith
          nlinarith
        exact (inter_eq_zero_of_sep hsep).1
      · exact absurd heq hne
      · have hgap : ((idxs.getD j 0 : ℚ)) + 1 ≤ (idxs.getD i 0 : ℚ) := by
          exact_mod_cast Int.add_one_le_iff.mpr hgt
        have hsep : (toBox ((offsetBoxes boxes idxs).getD j [])).x2 <
            (toBox ((offsetBoxes boxes idxs).getD i [])).x1 := by
          have : ((idxs.getD j 0 : ℚ) + 1) * (maxCoord boxes + 1) ≤
              (idxs.getD i 0 : ℚ) * (maxCoord boxes + 1) := by
            apply mul_le_mul_of_nonneg_right hgap
            linarith
          nlinarith
        exact (inter_eq_zero_of_sep hsep).2
    · obtain ⟨hidi, hM, hx1i, hx2i⟩ := offsetBox_bounds hrows hnn hids hilen hi
      have hzero : (offsetBoxes boxes idxs).getD j [] = [] :=
        offsetBoxes_getD_of_ge (by omega)
      rw [hzero]
      apply inter_eq_zero_of_nonpos
      show min _ (toBox []).x2 - max _ (toBox []).x1 ≤ 0
      have hx2 : (toBox ([] : List ℚ)).x2 = 0 := rfl
      have hx1 : (toBox ([] : List ℚ)).x1 = 0 := rfl
      rw [hx2, hx1]
      have h1 : min (toBox ((offsetBoxes boxes idxs).getD i [])).x2 0 ≤ 0 :=
        min_le_right _ 0
      have h2 : (0:ℚ) ≤ max (toBox ((offsetBoxes boxes idxs).getD i [])).x1 0 :=
        le_max_right _ 0
      linarith
  · by_cases hj : j < boxes.length
    · obtain ⟨hidj, hM, hx1j, hx2j⟩ := offsetBox_bounds hrows hnn hids hilen hj
      have hzero : (offsetBoxes boxes idxs).getD i [] = [] :=
        offsetBoxes_getD_of_ge (by omega)
      rw [hzero]
      apply inter_eq_zero_of_nonpos
      show min (toBox []).x2 _ - max (toBox []).x1 _ ≤ 0
      have hx2 : (toBox ([] : List ℚ)).x2 = 0 := rfl
      have hx1 : (toBox ([] : List ℚ)).x1 = 0 := rfl
      rw [hx2, hx1]
      have h1 : min (0:ℚ) (toBox ((offsetBoxes boxes idxs).getD j [])).x2 ≤ 0 :=
        min_le_left 0 _
      have h2 : (0:ℚ) ≤ max (0:ℚ) (toBox ((offsetBoxes boxes idxs).getD j [])).x1 :=
        le_max_left 0 _
      linarith
    · exfalso
      apply hne
      have hdi : idxs.getD i 0 = 0 := List.getD_eq_default _ _ (by omega)
      have hdj : idxs.getD j 0 = 0 := List.getD_eq_default _ _ (by omega)
      rw [hdi, hdj]

/-! ### The small-input path of `batched_nms` -/

/-- A default-argument `nms` call on well-shaped input succeeds and returns
exactly the `jittor.nms` kept sequence (no filtering, no truncation). -/
theorem nms_plain_inds (boxes' : List (List ℚ)) (scores' : List ℚ) (t : ℚ)
    (hrows : ∀ r ∈ boxes', r.length = 4) (hlen : boxes'.length = scores'.length) :
    nms boxes' scores' t 0 0 (-1) =
      .ok ((jittorNms (fun i => toBox (boxes'.getD i []))
              (fun i => scores'.getD i 0) boxes'.length t).map
            (fun i => boxes'.getD i [] ++ [scores'.getD i 0]),
        jittorNms (fun i => toBox (boxes'.getD i []))
          (fun i => scores'.getD i 0) boxes'.length t) := by
  have h1 : boxes'.all (fun r => r.length == 4) = true :=
    List.all_eq_true.mpr (fun r hr => by simpa using hrows r hr)
  have h2 : (boxes'.length == scores'.length) = true := by simpa using hlen
  have h3 : (((0:ℤ) == 0) || ((0:ℤ) == 1)) = true := by decide
  have hexec : NMSop_execute boxes' scores' t 0 0 (-1) =
      jittorNms (fun i => toBox (boxes'.getD i []))
        (fun i => scores'.getD i 0) boxes'.length t := by
    unfold NMSop_execute truncKeep rawKeep filteredBoxes filteredScores
    norm_num
  unfold nms
  rw [if_pos h1, if_pos h2, if_pos h3, hexec]

theorem offsetBoxes_rows {boxes : List (List ℚ)} {idxs : List ℤ}
    (hrows : ∀ r ∈ boxes, r.length = 4) :
    ∀ r ∈ offsetBoxes boxes idxs, r.length = 4 := by
  intro r hr
  unfold offsetBoxes at hr
  obtain ⟨i, hi, rfl⟩ := List.mem_map.mp hr
  rw [List.length_map]
  apply hrows
  rw [List.mem_range] at hi
  rw [List.getD_eq_getElem _ _ hi]
  exact List.getElem_mem hi

/-- On the two-key config `{iou_thr, split_thr}` with `N < split_thr`,
`batched_nms` takes the small-input branch. -/
theorem batched_nms_small_eq (boxes : List (List ℚ)) (scores : List ℚ)
    (idxs : List ℤ) (t : ℚ) (st_ : ℤ) (ca : Bool)
    (hsmall : (boxes.length : ℤ) < st_) :
    batched_nms boxes scores idxs
        [("iou_thr", CfgVal.q t), ("split_thr", CfgVal.i st_)] ca =
      (batched_small boxes scores (if ca then boxes else offsetBoxes boxes idxs) t,
        [("iou_thr", CfgVal.q t), ("split_thr", CfgVal.i st_)]) := by
  have hlenb : (if ca then boxes else offsetBoxes boxes idxs).length = boxes.length := by
    cases ca
    · simp [offsetBoxes_length]
    · simp
  have hred : batched_nms boxes scores idxs
      [("iou_thr", CfgVal.q t), ("split_thr", CfgVal.i st_)] ca =
      (if (((if ca then boxes else offsetBoxes boxes idxs).length : ℤ) < st_) then
          batched_small boxes scores (if ca then boxes else offsetBoxes boxes idxs) t
        else
          batched_large boxes scores idxs
            (if ca then boxes else offsetBoxes boxes idxs) t (-1),
        [("iou_thr", CfgVal.q t), ("split_thr", CfgVal.i st_)]) := rfl
  rw [hred, hlenb, if_pos hsmall]

theorem batched_keep_small (boxes : List (List ℚ)) (scores : List ℚ)
    (idxs : List ℤ) (t : ℚ) (st_ : ℤ)
    (hrows : ∀ r ∈ boxes, r.length = 4)
    (hslen : boxes.length = scores.length)
    (hsmall : (boxes.length : ℤ) < st_) :
    keepOf (batched_nms boxes scores idxs
        [("iou_thr", CfgVal.q t), ("split_thr", CfgVal.i st_)] false) =
      jittorNms (fun k => toBox ((offsetBoxes boxes idxs).getD k []))
        (fun k => scores.getD k 0) boxes.length t ∧
    okOf (batched_nms boxes scores idxs
        [("iou_thr", CfgVal.q t), ("split_thr", CfgVal.i st_)] false) = true := by
  rw [batched_nms_small_eq boxes scores idxs t st_ false hsmall]
  have hrows' : ∀ r ∈ offsetBoxes boxes idxs, r.length = 4 := offsetBoxes_rows hrows
  have hlen' : (offsetBoxes boxes idxs).length = scores.length := by
    rw [offsetBoxes_length]
    exact hslen
  unfold batched_small
  simp only [Bool.false_eq_true, if_false]
  rw [nms_plain_inds _ _ _ hrows' hlen']
  rw [offsetBoxes_length]
  constructor
  · rfl
  · rfl

/-- C1 (amended): on the small-input path with `class_agnostic = false`, and
under the conditions the offset trick actually needs — nonnegative box
coordinates, nonnegative group ids, a nonnegative IoU threshold — suppression
between different groups is impossible: the suppression predicate on the
offset boxes is `false` for every cross-group pair, and every dropped box has
a kept suppressor from its own group.  With `class_agnostic = true` the group
ids have no effect on the small-input path. -/
theorem claim_C1_no_cross_group_suppression (boxes : List (List ℚ))
    (scores : List ℚ) (idxs : List ℤ) (t : ℚ) (st_ : ℤ)
    (hrows : ∀ r ∈ boxes, r.length = 4)
    (hnn : ∀ r ∈ boxes, ∀ c ∈ r, 0 ≤ c)
    (hids : ∀ g ∈ idxs, 0 ≤ g)
    (hilen : idxs.length = boxes.length)
    (hslen : boxes.length = scores.length)
    (ht : 0 ≤ t)
    (hsmall : (boxes.length : ℤ) < st_) :
    (∀ i j, idxs.getD i 0 ≠ idxs.getD j 0 →
        supp (fun k => toBox ((offsetBoxes boxes idxs).getD k [])) t i j = false) ∧
      (∀ i < boxes.length,
        i ∉ keepOf (batched_nms boxes scores idxs
            [("iou_thr", CfgVal.q t), ("split_thr", CfgVal.i st_)] false) →
          ∃ j ∈ keepOf (batched_nms boxes scores idxs
              [("iou_thr", CfgVal.q t), ("split_thr", CfgVal.i st_)] false),
            idxs.getD j 0 = idxs.getD i 0 ∧
              supp (fun k => toBox ((offsetBoxes boxes idxs).getD k [])) t j i = true) ∧
      ∀ idxs' : List ℤ,
        batched_nms boxes scores idxs
            [("iou_thr", CfgVal.q t), ("split_thr", CfgVal.i st_)] true =
          batched_nms boxes scores idxs'
            [("iou_thr", CfgVal.q t), ("split_thr", CfgVal.i st_)] true := by
  have hcross := offset_supp_false hrows hnn hids hilen ht
  refine ⟨hcross, ?_, ?_⟩
  · intro i hi hnk
    rw [(batched_keep_small boxes scores idxs t st_ hrows hslen hsmall).1] at hnk ⊢
    set b := fun k => toBox ((offsetBoxes boxes idxs).getD k []) with hb
    set cand := sortIdx (scoreLe (fun k => scores.getD k 0)) (List.range boxes.length)
      with hcand
    have hmem : i ∈ cand := by
      rw [hcand, sortIdx_mem, List.mem_range]
      exact hi
    obtain ⟨j, hj, hsj⟩ :=
      greedy_suppressor b t cand.length cand le_rfl i hmem hnk
    refine ⟨j, hj, ?_, hsj⟩
    by_contra hnej
    rw [hcross j i hnej] at hsj
    exact absurd hsj (by simp)
  · intro idxs'
    rw [batched_nms_small_eq boxes scores idxs t st_ true hsmall,
      batched_nms_small_eq boxes scores idxs' t st_ true hsmall]
    simp

/-- C1 counterexample: with a negative-coordinate box the claim as stated
fails.  Box 1 (group 1) is `[-11,-11,-1,-1]`; `max_coordinate = 10`, so its
offset copy coincides exactly with box 0 (group 0), and the lower-scoring
box 1 is suppressed by box 0 even though their group ids differ. -/
theorem claim_C1_counterexample :
    keepOf (batched_nms [[0,0,10,10],[-11,-11,-1,-1]] [9/10, 8/10] [0, 1]
        [("iou_thr", CfgVal.q (1/2)), ("split_thr", CfgVal.i 10000)] false) = [0] := by
  rw [(batched_keep_small [[0,0,10,10],[-11,-11,-1,-1]] [9/10, 8/10] [0, 1] (1/2) 10000
      (by norm_num) (by norm_num) (by norm_num)).1]
  norm_num [jittorNms, greedy, greedyAux, sortIdx, insertS, scoreLe, supp, iou, inter,
    area, toBox, offsetBoxes, maxCoord, List.range_succ]

theorem claim_C1_witness :
    ((∀ r ∈ [[(0:ℚ),0,10,10],[20,20,30,30]], r.length = 4) ∧
        (∀ r ∈ [[(0:ℚ),0,10,10],[20,20,30,30]], ∀ c ∈ r, 0 ≤ c) ∧
        (∀ g ∈ [(0:ℤ), 1], 0 ≤ g) ∧ (0:ℚ) ≤ 1/2 ∧ ((2:ℤ) < 10000)) ∧
      ((∀ i j, [(0:ℤ), 1].getD i 0 ≠ [(0:ℤ), 1].getD j 0 →
          supp (fun k => toBox ((offsetBoxes [[0,0,10,10],[20,20,30,30]] [0, 1]).getD k []))
            (1/2) i j = false) ∧
        (∀ i < ([[(0:ℚ),0,10,10],[20,20,30,30]]).length,
          i ∉ keepOf (batched_nms [[0,0,10,10],[20,20,30,30]] [9/10, 8/10] [0, 1]
              [("iou_thr", CfgVal.q (1/2)), ("split_thr", CfgVal.i 10000)] false) →
            ∃ j ∈ keepOf (batched_nms [[0,0,10,10],[20,20,30,30]] [9/10, 8/10] [0, 1]
                [("iou_thr", CfgVal.q (1/2)), ("split_thr", CfgVal.i 10000)] false),
              [(0:ℤ), 1].getD j 0 = [(0:ℤ), 1].getD i 0 ∧
                supp (fun k => toBox ((offsetBoxes [[0,0,10,10],[20,20,30,30]] [0, 1]).getD k []))
                  (1/2) j i = true) ∧
        ∀ idxs' : List ℤ,
          batched_nms [[0,0,10,10],[20,20,30,30]] [9/10, 8/10] [0, 1]
              [("iou_thr", CfgVal.q (1/2)), ("split_thr", CfgVal.i 10000)] true =
            batched_nms [[0,0,10,10],[20,20,30,30]] [9/10, 8/10] idxs'
              [("iou_thr", CfgVal.q (1/2)), ("split_thr", CfgVal.i 10000)] true) :=
  ⟨⟨by norm_num, by norm_num, by norm_num, by norm_num, by norm_num⟩,
    claim_C1_no_cross_group_suppression [[0,0,10,10],[20,20,30,30]] [9/10, 8/10] [0, 1]
      (1/2) 10000 (by norm_num) (by norm_num) (by norm_num) (by norm_num) (by norm_num)
      (by norm_num) (by norm_num)⟩

/-! ### The large-input path of `batched_nms` -/

theorem except_bind_ok {ε α β : Type} (a : α) (f : α → Except ε β) :
    ((Except.ok a : Except ε α) >>= f) = f a := rfl

theorem except_pure_eq {ε α : Type} (a : α) : (pure a : Except ε α) = .ok a := rfl

theorem zip_self_map {α β : Type} (h : α → β) (l : List α) :
    l.zip (l.map h) = l.map (fun a => (a, h a)) := by
  induction l with
  | nil => rfl
  | cons a l ih => simp [ih]

theorem getD_map' {α β : Type} (l : List α) (f : α → β) (d : α) (d' : β) {k : ℕ}
    (h : k < l.length) : (l.map f).getD k d' = f (l.getD k d) := by
  rw [List.getD_eq_getElem _ _ (by simpa using h), List.getD_eq_getElem _ _ h,
    List.getElem_map]

theorem range_map_getD {α : Type} (l : List α) (d : α) :
    (List.range l.length).map (fun k => l.getD k d) = l := by
  apply List.ext_getElem
  · simp
  · intro i h1 h2
    rw [List.getElem_map, List.getElem_range, List.getD_eq_getElem _ _ h2]

theorem pairwise_lt_getD_mono {mask : List ℕ} (hmono : mask.Pairwise (· < ·))
    {a b : ℕ} (ha : a < mask.length) (hb : b < mask.length) (hab : a ≤ b) :
    mask.getD a 0 ≤ mask.getD b 0 := by
  rcases eq_or_lt_of_le hab with rfl | hlt
  · exact le_refl _
  · rw [List.getD_eq_getElem _ _ ha, List.getD_eq_getElem _ _ hb]
    exact (List.pairwise_iff_getElem.mp hmono a b ha hb hlt).le

theorem groupMask_mem {idxs : List ℤ} {g : ℤ} {i : ℕ} :
    i ∈ groupMask idxs g ↔ i < idxs.length ∧ idxs.getD i 0 = g := by
  simp [groupMask, List.mem_filter, List.mem_range]

theorem groupMask_pairwise_lt (idxs : List ℤ) (g : ℤ) :
    (groupMask idxs g).Pairwise (· < ·) :=
  (List.pairwise_lt_range idxs.length).sublist (List.filter_sublist _)

theorem groupMask_getD_lt {idxs : List ℤ} {g : ℤ} {k : ℕ}
    (hk : k < (groupMask idxs g).length) :
    (groupMask idxs g).getD k 0 < idxs.length ∧
      idxs.getD ((groupMask idxs g).getD k 0) 0 = g := by
  apply groupMask_mem.mp
  rw [List.getD_eq_getElem _ _ hk]
  exact List.getElem_mem hk

theorem insertS_congr {α : Type} (le₁ le₂ : α → α → Bool) (x : α) (l : List α)
    (h : ∀ b ∈ l, le₁ x b = le₂ x b) : insertS le₁ x l = insertS le₂ x l := by
  induction l with
  | nil => rfl
  | cons y ys ih =>
    simp only [insertS]
    rw [h y (List.mem_cons_self _ _),
      ih (fun b hb => h b (List.mem_cons_of_mem _ hb))]

theorem sortIdx_congr {α : Type} (le₁ le₂ : α → α → Bool) (l : List α)
    (h : ∀ a ∈ l, ∀ b ∈ l, le₁ a b = le₂ a b) : sortIdx le₁ l = sortIdx le₂ l := by
  induction l with
  | nil => rfl
  | cons x xs ih =>
    show insertS le₁ x (sortIdx le₁ xs) = insertS le₂ x (sortIdx le₂ xs)
    rw [ih (fun a ha b hb => h a (List.mem_cons_of_mem _ ha) b (List.mem_cons_of_mem _ hb))]
    apply insertS_congr
    intro b hb
    exact h x (List.mem_cons_self _ _) b
      (List.mem_cons_of_mem _ ((sortIdx_mem le₂ xs b).mp hb))

/-- Sorting local (subarray) positions by local score and mapping back through
a strictly increasing mask equals sorting the mask positions by global
score. -/
theorem sortIdx_map_mono (s : ℕ → ℚ) (mask : List ℕ)
    (hmono : mask.Pairwise (· < ·)) :
    (sortIdx (scoreLe (fun k => s (mask.getD k 0))) (List.range mask.length)).map
        (fun k => mask.getD k 0) =
      sortIdx (scoreLe s) mask := by
  apply sorted_perm_eq (scoreLe s) (scoreLe_antisymm s)
  · have p1 := (sortIdx_perm (scoreLe (fun k => s (mask.getD k 0)))
        (List.range mask.length)).map (fun k => mask.getD k 0)
    rw [range_map_getD] at p1
    exact p1.trans (sortIdx_perm (scoreLe s) mask).symm
  · rw [List.pairwise_map]
    apply (sortIdx_sorted _ (scoreLe_total _) (scoreLe_trans _) _).imp_of_mem
    intro a b ha hb hle
    have ha' : a < mask.length := by
      rw [sortIdx_mem, List.mem_range] at ha
      exact ha
    have hb' : b < mask.length := by
      rw [sortIdx_mem, List.mem_range] at hb
      exact hb
    simp only [scoreLe, decide_eq_true_eq] at hle ⊢
    rcases hle with h | ⟨he, hab⟩
    · exact Or.inl h
    · exact Or.inr ⟨he, pairwise_lt_getD_mono hmono ha' hb' hab⟩
  · exact sortIdx_sorted _ (scoreLe_total s) (scoreLe_trans s) mask

/-- Per-group local suppression mapped back through the mask equals global
suppression over the group's (globally sorted) candidate positions. -/
theorem group_keep_eq (bfn : List (List ℚ)) (scores : List ℚ) (idxs : List ℤ)
    (t : ℚ) (g : ℤ) :
    (jittorNms
        (fun k => toBox (((groupMask idxs g).map fun i => bfn.getD i []).getD k []))
        (fun k => ((groupMask idxs g).map fun i => scores.getD i 0).getD k 0)
        ((groupMask idxs g).map fun i => bfn.getD i []).length t).map
      (fun k => (groupMask idxs g).getD k 0) =
    greedy (fun k => toBox (bfn.getD k [])) t
      (sortIdx (scoreLe fun k => scores.getD k 0) (groupMask idxs g)) := by
  unfold jittorNms
  rw [List.length_map]
  have hsort : sortIdx (scoreLe fun k =>
        ((groupMask idxs g).map fun i => scores.getD i 0).getD k 0)
        (List.range (groupMask idxs g).length) =
      sortIdx (scoreLe fun k => scores.getD ((groupMask idxs g).getD k 0) 0)
        (List.range (groupMask idxs g).length) := by
    apply sortIdx_congr
    intro a ha b hb
    rw [List.mem_range] at ha hb
    unfold scoreLe
    simp only []
    rw [decide_eq_decide]
    rw [getD_map' (groupMask idxs g) _ 0 0 ha, getD_map' (groupMask idxs g) _ 0 0 hb]
  rw [hsort]
  have hmap := greedy_map (fun k => toBox (bfn.getD k []))
      (fun k => toBox (((groupMask idxs g).map fun i => bfn.getD i []).getD k [])) t
      (fun k => (groupMask idxs g).getD k 0)
      (sortIdx (scoreLe fun k => scores.getD ((groupMask idxs g).getD k 0) 0)
        (List.range (groupMask idxs g).length)).length
      (sortIdx (scoreLe fun k => scores.getD ((groupMask idxs g).getD k 0) 0)
        (List.range (groupMask idxs g).length))
      le_rfl
      (by
        intro k hk
        rw [sortIdx_mem, List.mem_range] at hk
        simp only []
        rw [getD_map' (groupMask idxs g) _ 0 [] hk])
  rw [← hmap, sortIdx_map_mono (fun k => scores.getD k 0) (groupMask idxs g)
    (groupMask_pairwise_lt idxs g)]

/-- Evaluation of one group-loop iteration: it always succeeds and appends the
group's globally kept indices with their original scores. -/
theorem groupStep_eq (bfn : List (List ℚ)) (scores : List ℚ) (idxs : List ℤ)
    (t : ℚ) (hb4 : ∀ i < idxs.length, (bfn.getD i []).length = 4)
    (acc : List (ℕ × ℚ)) (g : ℤ) :
    groupStep bfn scores idxs t acc g =
      .ok (acc ++
        (greedy (fun k => toBox (bfn.getD k [])) t
            (sortIdx (scoreLe fun k => scores.getD k 0) (groupMask idxs g))).map
          (fun i => (i, scores.getD i 0))) := by
  have hrows' : ∀ r ∈ (groupMask idxs g).map fun i => bfn.getD i [], r.length = 4 := by
    intro r hr
    obtain ⟨i, hi, rfl⟩ := List.mem_map.mp hr
    exact hb4 i (groupMask_mem.mp hi).1
  have hlen' : ((groupMask idxs g).map fun i => bfn.getD i []).length =
      ((groupMask idxs g).map fun i => scores.getD i 0).length := by
    rw [List.length_map, List.length_map]
  unfold groupStep
  rw [nms_plain_inds _ _ _ hrows' hlen']
  simp only []
  congr 1
  rw [zip_self_map, List.map_map]
  have hpt : ∀ k ∈ jittorNms
      (fun k => toBox (((groupMask idxs g).map fun i => bfn.getD i []).getD k []))
      (fun k => ((groupMask idxs g).map fun i => scores.getD i 0).getD k 0)
      ((groupMask idxs g).map fun i => bfn.getD i []).length t,
      ((fun kd : ℕ × List ℚ => ((groupMask idxs g).getD kd.1 0, kd.2.getD 4 0)) ∘
        fun k => (k, ((groupMask idxs g).map fun i => bfn.getD i []).getD k [] ++
          [((groupMask idxs g).map fun i => scores.getD i 0).getD k 0])) k =
      ((fun i => (i, scores.getD i 0)) ∘ fun k => (groupMask idxs g).getD k 0) k := by
    intro k hk
    have hk' : k < (groupMask idxs g).length := by
      have := jittorNms_mem hk
      rwa [List.length_map] at this
    simp only [Function.comp_apply]
    rw [getD_map' (groupMask idxs g) _ 0 [] hk', getD_map' (groupMask idxs g) _ 0 0 hk']
    rw [getD_four_append (hb4 _ (groupMask_getD_lt hk').1)]
  rw [List.map_congr_left hpt, ← List.map_map, group_keep_eq]

theorem foldlM_groupStep (bfn : List (List ℚ)) (scores : List ℚ) (idxs : List ℤ)
    (t : ℚ) (hb4 : ∀ i < idxs.length, (bfn.getD i []).length = 4) :
    ∀ (gs : List ℤ) (acc : List (ℕ × ℚ)),
      gs.foldlM (groupStep bfn scores idxs t) acc =
        .ok (acc ++ gs.flatMap fun g =>
          (greedy (fun k => toBox (bfn.getD k [])) t
              (sortIdx (scoreLe fun k => scores.getD k 0) (groupMask idxs g))).map
            (fun i => (i, scores.getD i 0))) := by
  intro gs
  induction gs with
  | nil =>
    intro acc
    simp [List.foldlM, except_pure_eq]
  | cons g gs ih =>
    intro acc
    rw [List.foldlM_cons, groupStep_eq bfn scores idxs t hb4, except_bind_ok, ih]
    rw [List.flatMap_cons, List.append_assoc]

/-- The whole per-group loop succeeds and produces, for every group in
ascending id order, that group's kept indices paired with their scores. -/
theorem groupedPairs_eq (bfn : List (List ℚ)) (scores : List ℚ) (idxs : List ℤ)
    (t : ℚ) (hb4 : ∀ i < idxs.length, (bfn.getD i []).length = 4) :
    groupedPairs bfn scores idxs t =
      .ok ((uniqueSorted idxs).flatMap fun g =>
        (greedy (fun k => toBox (bfn.getD k [])) t
            (sortIdx (scoreLe fun k => scores.getD k 0) (groupMask idxs g))).map
          (fun i => (i, scores.getD i 0))) := by
  unfold groupedPairs
  rw [foldlM_groupStep bfn scores idxs t hb4, List.nil_append]

theorem jittorNms_def (b : ℕ → Box) (s : ℕ → ℚ) (n : ℕ) (t : ℚ) :
    jittorNms b s n t = greedy b t (sortIdx (scoreLe s) (List.range n)) := rfl

/-- The large branch always succeeds (given well-shaped rows), and without a
positive `max_num` its kept set consists exactly of the in-range indices kept
by some group's suppression run. -/
theorem batched_large_mem (boxes : List (List ℚ)) (scores : List ℚ) (idxs : List ℤ)
    (bfn : List (List ℚ)) (t : ℚ) (mx : ℤ)
    (hb4 : ∀ i < idxs.length, (bfn.getD i []).length = 4) (hmx : ¬ 0 < mx) :
    ∃ dk, batched_large boxes scores idxs bfn t mx = .ok dk ∧
      ∀ i, (i ∈ dk.2 ↔ i < scores.length ∧ ∃ g ∈ uniqueSorted idxs,
        i ∈ greedy (fun k => toBox (bfn.getD k [])) t
          (sortIdx (scoreLe fun k => scores.getD k 0) (groupMask idxs g))) := by
  unfold batched_large
  rw [groupedPairs_eq bfn scores idxs t hb4]
  refine ⟨_, rfl, ?_⟩
  intro i
  simp only []
  rw [if_neg hmx, sortIdx_mem, List.mem_filter, List.mem_range]
  simp only [List.any_eq_true, beq_iff_eq, decide_eq_true_eq]
  constructor
  · rintro ⟨hi, p, hp, hpi⟩
    refine ⟨hi, ?_⟩
    rw [List.mem_flatMap] at hp
    obtain ⟨g, hg, hpg⟩ := hp
    obtain ⟨i', hi', rfl⟩ := List.mem_map.mp hpg
    simp only [] at hpi
    rw [hpi] at hi'
    exact ⟨g, hg, hi'⟩
  · rintro ⟨hi, g, hg, hgi⟩
    refine ⟨hi, (i, scores.getD i 0), ?_, rfl⟩
    rw [List.mem_flatMap]
    exact ⟨g, hg, List.mem_map.mpr ⟨i, hgi, rfl⟩⟩

/-- When cross-group suppression is impossible, a group's kept set is the
restriction of the global kept set to that group. -/
theorem gKeep_filter (bfn : List (List ℚ)) (scores : List ℚ) (idxs : List ℤ)
    (t : ℚ) (g : ℤ)
    (hcross : ∀ i j, idxs.getD i 0 ≠ idxs.getD j 0 →
      supp (fun k => toBox (bfn.getD k [])) t i j = false) :
    greedy (fun k => toBox (bfn.getD k [])) t
        (sortIdx (scoreLe fun k => scores.getD k 0) (groupMask idxs g)) =
      (greedy (fun k => toBox (bfn.getD k [])) t
          (sortIdx (scoreLe fun k => scores.getD k 0) (List.range idxs.length))).filter
        (fun i => idxs.getD i 0 == g) := by
  rw [greedy_filter_group (fun k => toBox (bfn.getD k [])) t (fun i => idxs.getD i 0) g
      hcross _ _ le_rfl, sortIdx_filter]
  rfl

/-- On the two-key config `{iou_thr, split_thr}` with `split_thr ≤ N`,
`batched_nms` takes the large-input branch (with default `max_num = -1`). -/
theorem batched_nms_large_eq (boxes : List (List ℚ)) (scores : List ℚ)
    (idxs : List ℤ) (t : ℚ) (st_ : ℤ) (ca : Bool)
    (hlarge : ¬ ((boxes.length : ℤ) < st_)) :
    batched_nms boxes scores idxs
        [("iou_thr", CfgVal.q t), ("split_thr", CfgVal.i st_)] ca =
      (batched_large boxes scores idxs (if ca then boxes else offsetBoxes boxes idxs)
          t (-1),
        [("iou_thr", CfgVal.q t), ("split_thr", CfgVal.i st_)]) := by
  have hlenb : (if ca then boxes else offsetBoxes boxes idxs).length = boxes.length := by
    cases ca
    · simp [offsetBoxes_length]
    · simp
  have hred : batched_nms boxes scores idxs
      [("iou_thr", CfgVal.q t), ("split_thr", CfgVal.i st_)] ca =
      (if (((if ca then boxes else offsetBoxes boxes idxs).length : ℤ) < st_) then
          batched_small boxes scores (if ca then boxes else offsetBoxes boxes idxs) t
        else
          batched_large boxes scores idxs
            (if ca then boxes else offsetBoxes boxes idxs) t (-1),
        [("iou_thr", CfgVal.q t), ("split_thr", CfgVal.i st_)]) := rfl
  rw [hred, hlenb, if_neg hlarge]

/-- C5 (amended): with `class_agnostic = false`, nonnegative coordinates and
group ids, a nonnegative IoU threshold and no `max_num` in the config, the
small-input path (`N < split_thr`) and the large-input path
(`split_thr ≤ N`) both succeed and keep exactly the same set of indices. -/
theorem claim_C5_small_large_same_kept_set (boxes : List (List ℚ))
    (scores : List ℚ) (idxs : List ℤ) (t : ℚ) (st₁ st₂ : ℤ)
    (hrows : ∀ r ∈ boxes, r.length = 4)
    (hnn : ∀ r ∈ boxes, ∀ c ∈ r, 0 ≤ c)
    (hids : ∀ g ∈ idxs, 0 ≤ g)
    (hilen : idxs.length = boxes.length)
    (hslen : boxes.length = scores.length)
    (ht : 0 ≤ t)
    (h₁ : (boxes.length : ℤ) < st₁) (h₂ : st₂ ≤ (boxes.length : ℤ)) :
    okOf (batched_nms boxes scores idxs
        [("iou_thr", CfgVal.q t), ("split_thr", CfgVal.i st₁)] false) = true ∧
      okOf (batched_nms boxes scores idxs
        [("iou_thr", CfgVal.q t), ("split_thr", CfgVal.i st₂)] false) = true ∧
      ∀ i, (i ∈ keepOf (batched_nms boxes scores idxs
          [("iou_thr", CfgVal.q t), ("split_thr", CfgVal.i st₁)] false) ↔
        i ∈ keepOf (batched_nms boxes scores idxs
          [("iou_thr", CfgVal.q t), ("split_thr", CfgVal.i st₂)] false)) := by
  obtain ⟨hkS, hokS⟩ := batched_keep_small boxes scores idxs t st₁ hrows hslen h₁
  have hlarge : ¬ ((boxes.length : ℤ) < st₂) := by omega
  have hL := batched_nms_large_eq boxes scores idxs t st₂ false hlarge
  simp only [Bool.false_eq_true, if_false] at hL
  have hb4 : ∀ i < idxs.length, ((offsetBoxes boxes idxs).getD i []).length = 4 := by
    intro i hi
    have hi' : i < boxes.length := by omega
    rw [offsetBoxes_getD hi', List.length_map]
    apply hrows
    rw [List.getD_eq_getElem _ _ hi']
    exact List.getElem_mem hi'
  obtain ⟨dk, hdk, hmem⟩ := batched_large_mem boxes scores idxs
    (offsetBoxes boxes idxs) t (-1) hb4 (by omega)
  have hok2 : okOf (batched_nms boxes scores idxs
      [("iou_thr", CfgVal.q t), ("split_thr", CfgVal.i st₂)] false) = true := by
    rw [hL, hdk]
    rfl
  have hk2 : keepOf (batched_nms boxes scores idxs
      [("iou_thr", CfgVal.q t), ("split_thr", CfgVal.i st₂)] false) = dk.2 := by
    rw [hL, hdk]
    rfl
  refine ⟨hokS, hok2, ?_⟩
  intro i
  rw [hkS, hk2, hmem i]
  have hcross := offset_supp_false hrows hnn hids hilen ht
  rw [jittorNms_def]
  constructor
  · intro hiS
    have hiN : i < boxes.length := by
      have := greedy_subset hiS
      rw [sortIdx_mem, List.mem_range] at this
      exact this
    refine ⟨by omega, idxs.getD i 0, ?_, ?_⟩
    · unfold uniqueSorted
      rw [sortIdx_mem, List.mem_dedup]
      have hii : i < idxs.length := by omega
      rw [List.getD_eq_getElem _ _ hii]
      exact List.getElem_mem hii
    · rw [gKeep_filter _ _ _ _ _ hcross, List.mem_filter, hilen]
      exact ⟨hiS, by simp⟩
  · rintro ⟨his, g, hg, hgi⟩
    rw [gKeep_filter _ _ _ _ _ hcross, List.mem_filter, hilen] at hgi
    exact hgi.1

/-- C5 counterexample: with `class_agnostic = true` the two paths disagree.
Two identical boxes in different groups: the small path suppresses the
lower-scoring one (kept set `{0}`), while the large path still partitions by
group id and keeps both (kept set `{0, 1}`). -/
theorem claim_C5_counterexample :
    keepOf (batched_nms [[0,0,10,10],[0,0,10,10]] [9/10, 8/10] [0, 1]
        [("iou_thr", CfgVal.q (1/2)), ("split_thr", CfgVal.i 10)] true) = [0] ∧
      keepOf (batched_nms [[0,0,10,10],[0,0,10,10]] [9/10, 8/10] [0, 1]
        [("iou_thr", CfgVal.q (1/2)), ("split_thr", CfgVal.i 2)] true) = [0, 1] := by
  constructor
  · rw [batched_nms_small_eq _ _ _ _ _ _ (by norm_num)]
    norm_num [batched_small, nms, NMSop_execute, truncKeep, rawKeep, filteredBoxes,
      filteredScores, jittorNms, greedy, greedyAux, sortIdx, insertS, scoreLe, supp,
      iou, inter, area, toBox, validInds, keepOf, List.range_succ]
  · rw [batched_nms_large_eq _ _ _ _ _ _ (by norm_num)]
    norm_num [batched_large, groupedPairs, groupStep, uniqueSorted, intLe, groupMask,
      scoresAfter, nms, NMSop_execute, truncKeep, rawKeep, filteredBoxes,
      filteredScores, jittorNms, greedy, greedyAux, sortIdx, insertS, scoreLe, supp,
      iou, inter, area, toBox, validInds, keepOf, List.range_succ, List.foldlM,
      List.dedup_nil, List.dedup_cons_of_mem, List.dedup_cons_of_not_mem,
      except_bind_ok, except_pure_eq, List.find?]
    show ((9:ℚ)/10 ≤ 4/5) → (9:ℚ)/10 = 4/5
    intro h
    norm_num at h

theorem claim_C5_witness :
    ((0:ℚ) ≤ 1/2 ∧ ((2:ℤ) < 10000) ∧ ((2:ℤ) ≤ 2)) ∧
      (okOf (batched_nms [[0,0,10,10],[20,20,30,30]] [9/10, 8/10] [0, 1]
          [("iou_thr", CfgVal.q (1/2)), ("split_thr", CfgVal.i 10000)] false) = true ∧
        okOf (batched_nms [[0,0,10,10],[20,20,30,30]] [9/10, 8/10] [0, 1]
          [("iou_thr", CfgVal.q (1/2)), ("split_thr", CfgVal.i 2)] false) = true ∧
        ∀ i, (i ∈ keepOf (batched_nms [[0,0,10,10],[20,20,30,30]] [9/10, 8/10] [0, 1]
            [("iou_thr", CfgVal.q (1/2)), ("split_thr", CfgVal.i 10000)] false) ↔
          i ∈ keepOf (batched_nms [[0,0,10,10],[20,20,30,30]] [9/10, 8/10] [0, 1]
            [("iou_thr", CfgVal.q (1/2)), ("split_thr", CfgVal.i 2)] false))) :=
  ⟨⟨by norm_num, by norm_num, by norm_num⟩,
    claim_C5_small_large_same_kept_set [[0,0,10,10],[20,20,30,30]] [9/10, 8/10] [0, 1]
      (1/2) 10000 2 (by norm_num) (by norm_num) (by norm_num) (by norm_num)
      (by norm_num) (by norm_num) (by norm_num) (by norm_num)⟩

/-! ### Claims C8, C9, C10 -/

/-- C8 (amended): when the config dict contains a `class_agnostic` entry, that
entry's value determines whether suppression is class-agnostic and the
explicit parameter is irrelevant; the parameter only serves as the `pop`
default when the key is absent — the opposite of the claimed override
direction. -/
theorem claim_C8_config_overrides_parameter (boxes : List (List ℚ))
    (scores : List ℚ) (idxs : List ℤ) (cfg : Cfg) (v : Bool)
    (h : List.lookup "class_agnostic" cfg = some (CfgVal.b v)) (p₁ p₂ : Bool) :
    batched_nms boxes scores idxs cfg p₁ = batched_nms boxes scores idxs cfg p₂ := by
  have hpop : ∀ p : Bool, popBool (cfgCopy cfg) "class_agnostic" p =
      (v, cfg.eraseP (fun kv => kv.1 == "class_agnostic")) := by
    intro p
    unfold popBool dictPop cfgCopy
    rw [h]
  unfold batched_nms batched_body
  rw [hpop p₁, hpop p₂]

/-- C8 counterexample: `{class_agnostic: true}` in the config with explicit
parameter `false` behaves class-agnostically (the heavily overlapping
cross-group box 1 is suppressed), unlike the same call without the key, where
the parameter `false` applies and both boxes survive.  The parameter did not
determine the behaviour; the config entry did. -/
theorem claim_C8_counterexample :
    keepOf (batched_nms [[0,0,10,10],[0,0,10,9]] [9/10, 8/10] [0, 1]
        [("class_agnostic", CfgVal.b true), ("iou_thr", CfgVal.q (1/2)),
          ("split_thr", CfgVal.i 10000)] false) = [0] ∧
      keepOf (batched_nms [[0,0,10,10],[0,0,10,9]] [9/10, 8/10] [0, 1]
        [("iou_thr", CfgVal.q (1/2)), ("split_thr", CfgVal.i 10000)] false) = [0, 1] := by
  constructor
  · norm_num [batched_nms, batched_body, batched_small, cfgCopy, popBool, popQ, popI,
      dictPop, List.lookup, List.eraseP, nms, NMSop_execute, truncKeep, rawKeep,
      filteredBoxes, filteredScores, jittorNms, greedy, greedyAux, sortIdx, insertS,
      scoreLe, supp, iou, inter, area, toBox, validInds, keepOf, List.range_succ]
  · rw [(batched_keep_small [[0,0,10,10],[0,0,10,9]] [9/10, 8/10] [0, 1] (1/2) 10000
        (by norm_num) (by norm_num) (by norm_num)).1]
    norm_num [jittorNms, greedy, greedyAux, sortIdx, insertS, scoreLe, supp, iou,
      inter, area, toBox, offsetBoxes, maxCoord, List.range_succ]

theorem claim_C8_witness :
    List.lookup "class_agnostic" [("class_agnostic", CfgVal.b true)] =
        some (CfgVal.b true) ∧
      batched_nms [] [] [] [("class_agnostic", CfgVal.b true)] false =
        batched_nms [] [] [] [("class_agnostic", CfgVal.b true)] true :=
  ⟨rfl, claim_C8_config_overrides_parameter [] [] [] [("class_agnostic", CfgVal.b true)]
    true rfl false true⟩

/-- C10: `batched_nms` never mutates the caller's config dictionary: every
`.pop` acts on the `.copy()`, so the caller's dictionary state after the call
is exactly the dictionary passed in. -/
theorem claim_C10_cfg_not_mutated (boxes : List (List ℚ)) (scores : List ℚ)
    (idxs : List ℤ) (nms_cfg : Cfg) (class_agnostic : Bool) :
    (batched_nms boxes scores idxs nms_cfg class_agnostic).2 = nms_cfg := rfl

theorem if_bfn_length (boxes : List (List ℚ)) (idxs : List ℤ) (b : Bool) :
    (if b then boxes else offsetBoxes boxes idxs).length = boxes.length := by
  cases b
  · simp [offsetBoxes_length]
  · simp

/-- A successful small branch keeps distinct in-range indices. -/
theorem batched_small_keep_ok {boxes : List (List ℚ)} {scores : List ℚ}
    {bfn : List (List ℚ)} {t : ℚ} {dets : List (List ℚ)} {keep : List ℕ}
    (hlenb : bfn.length = boxes.length)
    (h : batched_small boxes scores bfn t = .ok (dets, keep)) :
    keep.Nodup ∧ ∀ i ∈ keep, i < boxes.length := by
  unfold batched_small at h
  cases hnms : nms bfn scores t 0 0 (-1) with
  | error e =>
    rw [hnms] at h
    simp at h
  | ok a =>
    obtain ⟨dets0, keep0⟩ := a
    rw [hnms] at h
    simp only [Except.ok.injEq, Prod.mk.injEq] at h
    obtain ⟨-, hkeep⟩ := h
    obtain ⟨-, hlen2, -, hinds, -⟩ := nms_ok hnms
    rw [← hkeep, hinds]
    refine ⟨execute_nodup _ _ _ _ _ _, ?_⟩
    intro i hi
    have := execute_mem_lt hlen2 hi
    omega

/-- A successful large branch keeps distinct indices below the score count. -/
theorem batched_large_keep_ok {boxes : List (List ℚ)} {scores : List ℚ}
    {idxs : List ℤ} {bfn : List (List ℚ)} {t : ℚ} {mx : ℤ}
    {dets : List (List ℚ)} {keep : List ℕ}
    (h : batched_large boxes scores idxs bfn t mx = .ok (dets, keep)) :
    keep.Nodup ∧ ∀ i ∈ keep, i < scores.length := by
  unfold batched_large at h
  cases hgp : groupedPairs bfn scores idxs t with
  | error e =>
    rw [hgp] at h
    simp at h
  | ok pairs =>
    rw [hgp] at h
    simp only [Except.ok.injEq, Prod.mk.injEq] at h
    obtain ⟨-, hkeep⟩ := h
    have hk0 : ((List.range scores.length).filter
        (fun i => pairs.any fun p => p.1 == i)).Nodup :=
      (List.nodup_range scores.length).filter _
    have hk1 : (sortIdx (scoreLe (scoresAfter pairs))
        ((List.range scores.length).filter
          (fun i => pairs.any fun p => p.1 == i))).Nodup :=
      (sortIdx_perm _ _).nodup_iff.mpr hk0
    have hmem1 : ∀ i ∈ sortIdx (scoreLe (scoresAfter pairs))
        ((List.range scores.length).filter
          (fun i => pairs.any fun p => p.1 == i)), i < scores.length := by
      intro i hi
      rw [sortIdx_mem, List.mem_filter, List.mem_range] at hi
      exact hi.1
    rw [← hkeep]
    by_cases hmx : 0 < mx
    · rw [if_pos hmx]
      exact ⟨hk1.sublist (List.take_sublist _ _),
        fun i hi => hmem1 i ((List.take_sublist _ _).subset hi)⟩
    · rw [if_neg hmx]
      exact ⟨hk1, hmem1⟩

/-- C9: every index returned by a successful `nms` call, and by a successful
`batched_nms` call on equal-length boxes and scores, is unique within the
returned sequence and lies in `[0, N)`. -/
theorem claim_C9_indices_unique_in_range (boxes : List (List ℚ)) (scores : List ℚ)
    (t : ℚ) (off : ℤ) (st : ℚ) (mn : ℤ) (idxs : List ℤ) (cfg : Cfg) (ca : Bool) :
    (∀ dets inds, nms boxes scores t off st mn = .ok (dets, inds) →
        inds.Nodup ∧ ∀ i ∈ inds, i < boxes.length) ∧
      (boxes.length = scores.length →
        ∀ dets keep, (batched_nms boxes scores idxs cfg ca).1 = .ok (dets, keep) →
          keep.Nodup ∧ ∀ i ∈ keep, i < boxes.length) := by
  constructor
  · intro dets inds h
    obtain ⟨-, hlen2, -, hinds, -⟩ := nms_ok h
    rw [hinds]
    exact ⟨execute_nodup _ _ _ _ _ _, fun i hi => execute_mem_lt hlen2 hi⟩
  · intro hlen dets keep hok
    have hbody : batched_body boxes scores idxs cfg ca = .ok (dets, keep) := hok
    unfold batched_body at hbody
    simp only [] at hbody
    split at hbody
    all_goals split at hbody
    · exact batched_small_keep_ok rfl hbody
    · obtain ⟨hnd, hbound⟩ := batched_large_keep_ok hbody
      refine ⟨hnd, fun i hi => ?_⟩
      have := hbound i hi
      omega
    · exact batched_small_keep_ok (offsetBoxes_length boxes idxs) hbody
    · obtain ⟨hnd, hbound⟩ := batched_large_keep_ok hbody
      refine ⟨hnd, fun i hi => ?_⟩
      have := hbound i hi
      omega

theorem claim_C9_witness :
    (nms [[0,0,4,4],[10,10,14,14]] [1/2, 9/10] (1/2) 0 0 (-1) =
        .ok ([[10,10,14,14,9/10],[0,0,4,4,1/2]], [1, 0]) ∧
      (([1, 0] : List ℕ).Nodup ∧
        ∀ i ∈ ([1, 0] : List ℕ), i < ([[(0:ℚ),0,4,4],[10,10,14,14]]).length)) ∧
      ((batched_nms [[0,0,4,4],[10,10,14,14]] [1/2, 9/10] [0, 1]
          [("iou_thr", CfgVal.q (1/2)), ("split_thr", CfgVal.i 10000)] false).1 =
        .ok ([[10,10,14,14,9/10],[0,0,4,4,1/2]], [1, 0]) ∧
      (([1, 0] : List ℕ).Nodup ∧
        ∀ i ∈ ([1, 0] : List ℕ), i < ([[(0:ℚ),0,4,4],[10,10,14,14]]).length)) := by
  have hn : nms [[0,0,4,4],[10,10,14,14]] [1/2, 9/10] (1/2) 0 0 (-1) =
      .ok ([[10,10,14,14,9/10],[0,0,4,4,1/2]], [1, 0]) := by
    norm_num [nms, NMSop_execute, truncKeep, rawKeep, filteredBoxes, filteredScores,
      jittorNms, greedy, greedyAux, sortIdx, insertS, scoreLe, supp, iou, inter, area,
      toBox, validInds, List.range_succ]
  have hb : (batched_nms [[0,0,4,4],[10,10,14,14]] [1/2, 9/10] [0, 1]
      [("iou_thr", CfgVal.q (1/2)), ("split_thr", CfgVal.i 10000)] false).1 =
      .ok ([[10,10,14,14,9/10],[0,0,4,4,1/2]], [1, 0]) := by
    rw [batched_nms_small_eq _ _ _ _ _ _ (by norm_num)]
    norm_num [batched_small, nms, NMSop_execute, truncKeep, rawKeep, filteredBoxes,
      filteredScores, jittorNms, greedy, greedyAux, sortIdx, insertS, scoreLe, supp,
      iou, inter, area, toBox, validInds, offsetBoxes, maxCoord, List.range_succ]
  exact ⟨⟨hn, (claim_C9_indices_unique_in_range [[0,0,4,4],[10,10,14,14]] [1/2, 9/10]
        (1/2) 0 0 (-1) [0, 1]
        [("iou_thr", CfgVal.q (1/2)), ("split_thr", CfgVal.i 10000)] false).1 _ _ hn⟩,
    ⟨hb, (claim_C9_indices_unique_in_range [[0,0,4,4],[10,10,14,14]] [1/2, 9/10]
        (1/2) 0 0 (-1) [0, 1]
        [("iou_thr", CfgVal.q (1/2)), ("split_thr", CfgVal.i 10000)] false).2
      (by norm_num) _ _ hb⟩⟩

end JADNms
